import Mathlib

/-!
Verification of the asynchronous MPC second-price auction stack.

This file gives a shallow embedding, in Lean 4, of the computational core of
the repository: the prime field (src/field.py), Horner evaluation and
Lagrange interpolation (src/core/polynomial.py), the reshare-subset choice
and public opening of the MPC arithmetic layer
(src/protocols/mpc_arithmetic.py), the ripple-borrow bit decomposition
(src/circuits/bit_decomposition.py), the MSB-first comparison circuit
(src/circuits/comparison.py), the second-price auction circuit
(src/circuits/auction.py), the per-session CSS state machine
(src/protocols/css.py) and the per-instance RBC state machine (src/rbc.py).

Modeling conventions:
  - FieldElement is modeled as ZMod PRIME; the Python operators +, -, *,
    unary - and == are the ring operations of ZMod PRIME, and in particular
    FieldElement(v) is the natural cast of v.  Exceptions (raise) are
    modeled with Except.
  - Secret-shared values are modeled by their reconstructed field values
    (the value of the sharing polynomial at x = 0): local add, sub and
    scalar_mul reconstruct to field +, - and *, and multiply reconstructs
    to the field product of the reconstructions.  Circuit-level claims are
    stated and proved at this reconstruction level.
  - Python dicts keyed by party id or payload digest are modeled as
    association lists that preserve insertion order, exactly as CPython
    dicts do; set.add is modeled as duplicate-free insertion.
  - The sha256-based VID of a CSS session is modeled by the hash input
    (session id and echo pairs sorted as the code sorts them), which is
    injective where sha256 is collision resistant.
  - json.dumps canonical payload digests in RBC are modeled by the payload
    itself (the encoding is injective on payloads).
-/

namespace Reliability

/-- The field modulus p = 2^127 - 1 (PRIME in src/field.py). -/
def PRIME : Nat := 2 ^ 127 - 1

/-- PRIME is the Mersenne prime 2^127 - 1; certified by the Lucas-Lehmer
test, evaluated by kernel reduction. -/
instance factPrimePrime : Fact (Nat.Prime PRIME) :=
  ⟨by
    rw [show PRIME = mersenne 127 from rfl]
    exact lucas_lehmer_sufficiency 127 (by norm_num) (by norm_num)⟩

/-- Elements of F_p (class FieldElement in src/field.py). -/
abbrev Fp : Type := ZMod PRIME

/-- FieldElement.inverse (src/field.py): raises ZeroDivisionError on the zero
element, otherwise returns the Fermat inverse a^(p-2) mod p computed by
pow(self.value, PRIME - 2, PRIME). -/
def inverse (a : Fp) : Except String Fp :=
  if a = 0 then .error "ZeroDivisionError" else .ok (a ^ (PRIME - 2))

/-- FieldElement.__truediv__ (src/field.py): self * other.inverse(), so it
propagates the ZeroDivisionError of inverse on a zero divisor. -/
def truediv (a b : Fp) : Except String Fp :=
  (inverse b).map (fun bi => a * bi)

/-- Polynomial.evaluate (src/core/polynomial.py): Horner evaluation; coeffs
holds the constant term first, the loop runs over reversed coefficients. -/
def evaluate (coeffs : List Fp) (x : Fp) : Fp :=
  coeffs.foldr (fun c acc => acc * x + c) 0

/-- Polynomial.interpolate_at_zero (src/core/polynomial.py): Lagrange
interpolation evaluated at x = 0.  The source's loops over j with j not= i
are written as products over (Finset.range n).erase i, and x / y is field
division (the source divides via FieldElement.inverse; the denominators are
products of differences of distinct points at every use site, hence
nonzero, and Fermat inversion agrees with field inversion there). -/
def interpolateAtZero (points : List (Fp × Fp)) : Fp :=
  ∑ i ∈ Finset.range points.length,
    (points.getD i (0, 0)).2 *
      ((∏ j ∈ (Finset.range points.length).erase i, (-(points.getD j (0, 0)).1)) /
       (∏ j ∈ (Finset.range points.length).erase i,
          ((points.getD i (0, 0)).1 - (points.getD j (0, 0)).1)))

/-- The reshare-subset choice inside MPCArithmetic.multiply
(src/protocols/mpc_arithmetic.py, step 3).  The method first waits up to
RESHARE_TIMEOUT = 0.3 s for reshares from the whole active set; if they all
arrived it uses the full active set, otherwise it waits for at least n - f
active reshares and uses the sorted subset of active members whose reshares
have arrived at that moment.  arrivedByTimeout and arrivedAtFallback are
the key sets of self._reshares[session_id] at those two decision points;
activeSet is sorted (set_active_set sorts it), so the source's
sorted(pid for pid in active_set if pid in reshares) is the filter. -/
def multiplyUsedSet (activeSet arrivedByTimeout arrivedAtFallback : List Nat) : List Nat :=
  if activeSet.all (fun pid => pid ∈ arrivedByTimeout) then activeSet
  else activeSet.filter (fun pid => pid ∈ arrivedAtFallback)

/-- MPCArithmetic.open_value (src/protocols/mpc_arithmetic.py) after its
open event fired: the received shares (own share first, then senders in
arrival order) are turned into (cast pid, share) points and the first
f + 1 of them are interpolated at x = 0. -/
def openValue (received : List (Nat × Fp)) (f : Nat) : Fp :=
  interpolateAtZero ((received.map (fun pr => ((pr.1 : Fp), pr.2))).take (f + 1))

/-- Step 2 of BitDecomposition.decompose (src/circuits/bit_decomposition.py):
the share of r = sum of 2^i * r_i, accumulated left to right. -/
def maskFromBits (randomBits : List Fp) : Fp :=
  (randomBits.enum).foldl (fun acc p => acc + ((2 ^ p.1 : Nat) : Fp) * p.2) 0

/-- The local XOR of a public bit with a shared bit in _bit_subtraction
(src/circuits/bit_decomposition.py): t1 = r_i when y_i = 0, 1 - r_i
otherwise. -/
def fieldXorPub (y : Nat) (r : Fp) : Fp := if y = 0 then r else 1 - r

/-- XOR on shares: t + b - 2 t b (one multiplication in the source). -/
def fieldXor (t b : Fp) : Fp := t + b - 2 * (t * b)

/-- Borrow update of _bit_subtraction:
r_i * borrow + (1 - y_i) * (r_i + borrow - 2 r_i borrow), with the
public scalar not_y = 1 - y_i embedded from the integers. -/
def fieldBorrow (y : Nat) (r b : Fp) : Fp := r * b + ((1 - y : Nat) : Fp) * fieldXor r b

/-- Loop of BitDecomposition._bit_subtraction
(src/circuits/bit_decomposition.py).  publicBits are plain 0/1 integers,
sharedBits are reconstructions of shared bits; each step emits
XOR(XOR(y_i, r_i), borrow) and carries the updated borrow; the loop runs
over the shared bits (the top public bit is never read).  If publicBits
is shorter than sharedBits the source would raise IndexError; that case
is unreachable under the caller's length invariant and returns [] here. -/
def bitSubtractionGo (borrow : Fp) : List Nat → List Fp → List Fp
  | y :: ys, r :: rs =>
    fieldXor (fieldXorPub y r) borrow :: bitSubtractionGo (fieldBorrow y r borrow) ys rs
  | _, _ => []

/-- BitDecomposition._bit_subtraction: ripple-borrow subtraction of a shared
bit vector from a public bit vector, LSB first, starting with no borrow. -/
def bitSubtraction (publicBits : List Nat) (sharedBits : List Fp) : List Fp :=
  bitSubtractionGo 0 publicBits sharedBits

/-- BitDecomposition.decompose (src/circuits/bit_decomposition.py) after the
public opening returned the integer y: y is split into numBits + 1 plain
bits ((y_int >> i) & 1), the shared random bits are ripple-subtracted from
them, and the first numBits result bits are returned. -/
def decompose (y : Nat) (numBits : Nat) (randomBits : List Fp) : List Fp :=
  (bitSubtraction ((List.range (numBits + 1)).map (fun i => y / 2 ^ i % 2)) randomBits).take
    numBits

/-- Loop body of ComparisonCircuit.greater_than (src/circuits/comparison.py):
one multiplication a_i * b_i, then gt_i = a_i - a_i b_i,
eq_i = 1 - a_i - b_i + 2 a_i b_i, result += prefix_eq * gt_i (with the old
prefix_eq) and prefix_eq *= eq_i.  The source asserts equal lengths; a
length mismatch stops the scan here. -/
def greaterThanGo (prefixEq result : Fp) : List Fp → List Fp → Fp
  | a :: as', b :: bs' =>
    greaterThanGo (prefixEq * (1 - a - b + 2 * (a * b)))
      (result + prefixEq * (a - a * b)) as' bs'
  | _, _ => result

/-- ComparisonCircuit.greater_than: MSB-first comparison of two shared bit
vectors, starting from prefix_eq = 1 and result = 0. -/
def greaterThan (bitsA bitsB : List Fp) : Fp :=
  greaterThanGo 1 0 bitsA bitsB

/-- NUM_BITS = 5 of SecondPriceAuction (src/circuits/auction.py). -/
def NUM_BITS : Nat := 5

/-- Reconstruction of a shared bit: 1 for true, 0 for false. -/
def castBit (b : Bool) : Fp := if b then 1 else 0

/-- Value of an LSB-first plain bit vector. -/
def lsbVal : List Bool → Nat
  | [] => 0
  | b :: bs => (if b then 1 else 0) + 2 * lsbVal bs

/-- Value of an MSB-first plain bit vector. -/
def msbVal (bs : List Bool) : Nat := lsbVal bs.reverse

/-- Step 1 of SecondPriceAuction.run at the reconstruction level: the bid of
the party at position i is bit-decomposed with its NUM_BITS consumed random
bits; the public opening of bid + r reconstructs to the field element
bid + r whose integer value feeds decompose; the LSB-first output is
reversed to MSB-first as run does. -/
def auctionBits (bids : List Nat) (rbs : List (List Bool)) (i : Nat) : List Fp :=
  (decompose ((((bids.getD i 0 : Nat) : Fp) + maskFromBits ((rbs.getD i []).map castBit)).val)
      NUM_BITS ((rbs.getD i []).map castBit)).reverse

/-- Step 2 of SecondPriceAuction.run: the pairwise comparison matrix; for
positions i < j the circuit computes greater_than directly and fills the
symmetric entry with 1 - gt[(i, j)] locally.  The diagonal is never read. -/
def auctionGT (bids : List Nat) (rbs : List (List Bool)) (i j : Nat) : Fp :=
  if i < j then greaterThan (auctionBits bids rbs i) (auctionBits bids rbs j)
  else 1 - greaterThan (auctionBits bids rbs j) (auctionBits bids rbs i)

/-- Step 3 of SecondPriceAuction.run: is_max[i], the product of gt[(i, j)]
over j not= i in ascending j order. -/
def auctionIsMax (bids : List Nat) (rbs : List (List Bool)) (i : Nat) : Fp :=
  (((List.range bids.length).filter (fun j => j ≠ i))).foldl
    (fun acc j => acc * auctionGT bids rbs i j) 1

/-- Step 4 of SecondPriceAuction.run: is_min[i], the product of gt[(j, i)]
over j not= i in ascending j order. -/
def auctionIsMin (bids : List Nat) (rbs : List (List Bool)) (i : Nat) : Fp :=
  (((List.range bids.length).filter (fun j => j ≠ i))).foldl
    (fun acc j => acc * auctionGT bids rbs j i) 1

/-- wins[i] of the m = 4 branch of SecondPriceAuction.run: the sum of
gt[(i, j)] over j not= i. -/
def auctionWins (bids : List Nat) (rbs : List (List Bool)) (i : Nat) : Fp :=
  (((List.range bids.length).filter (fun j => j ≠ i))).foldl
    (fun acc j => acc + auctionGT bids rbs i j) 0

/-- inv_neg2 = FieldElement(-2).inverse() of the m = 4 branch: the Fermat
power (-2)^(p-2); -2 is nonzero so no ZeroDivisionError is raised. -/
def invNeg2 : Fp := (-2 : Fp) ^ (PRIME - 2)

/-- The m = 4 second-place indicator polynomial of SecondPriceAuction.run:
w * (w - 1) * (w - 3) scaled by inv_neg2 (scalar_mul applies the constant
on the left). -/
def isSecondOf (w : Fp) : Fp := invNeg2 * (w * (w - 1) * (w - 3))

/-- Step 5 of SecondPriceAuction.run: is_second[i]; 1 - is_max - is_min for
three active parties, the degree-3 indicator of wins = 2 for four.  Other
sizes raise ValueError in the source and are routed to the error case by
auctionRun before this function is read. -/
def auctionIsSecond (bids : List Nat) (rbs : List (List Bool)) (i : Nat) : Fp :=
  if bids.length = 3 then 1 - auctionIsMax bids rbs i - auctionIsMin bids rbs i
  else isSecondOf (auctionWins bids rbs i)

/-- Step 6 of SecondPriceAuction.run: second_price, the sum over i of
bid_share_i * is_second[i]. -/
def auctionSecondPrice (bids : List Nat) (rbs : List (List Bool)) : Fp :=
  ((List.range bids.length)).foldl
    (fun acc i => acc + ((bids.getD i 0 : Nat) : Fp) * auctionIsSecond bids rbs i) 0

/-- Step 7 of SecondPriceAuction.run: outputs[i] = is_max[i] * second_price
for every active position i. -/
def auctionOutputs (bids : List Nat) (rbs : List (List Bool)) : List Fp :=
  (List.range bids.length).map
    (fun i => auctionIsMax bids rbs i * auctionSecondPrice bids rbs)

/-- SecondPriceAuction.run (src/circuits/auction.py) at the reconstruction
level.  parties is the sorted active set; bids are read off positionally
from bid_shares; the initial assert m >= n - f and the ValueError of the
unsupported-size branch are modeled as errors.  Step 8 (output privacy)
hands the party in the active set exactly the reconstruction of its own
outputs entry, and None to a party outside the active set. -/
def auctionRun (n f partyId : Nat) (activeSet : List Nat) (bid : Nat → Nat)
    (rbs : List (List Bool)) : Except String (Option Fp) :=
  let parties := activeSet.mergeSort (fun a b => a ≤ b)
  let bids := parties.map bid
  if parties.length < n - f then .error "assert m >= n - f"
  else if parties.length = 3 ∨ parties.length = 4 then
    if partyId ∈ parties then
      .ok (some ((auctionOutputs bids rbs).getD (parties.findIdx (fun t => t = partyId)) 0))
    else .ok none
  else .error "Unsupported active set size"

/-- Proof-side bridge: the coefficient list of Polynomial (constant term
first) as a Mathlib polynomial; used only to relate evaluate and
interpolate_at_zero to the Mathlib Lagrange theory. -/
noncomputable def toPoly : List Fp → Polynomial Fp
  | [] => 0
  | c :: cs => Polynomial.C c + Polynomial.X * toPoly cs

/-- Session status of a CSS session (class CSSStatus in src/protocols/css.py). -/
inductive CSSStatus
  | pending
  | finalized
  | invalid
deriving DecidableEq, Repr

/-- Per-session CSS state at one party (the session_id slices of the maps of
CSSProtocol in src/protocols/css.py).  echoes is the insertion-ordered
point -> value dict; vid is set on finalization. -/
structure CSSSession where
  sid : String
  share : Option Fp
  echoes : List (Nat × Fp)
  status : CSSStatus
  vid : Option (String × List (Nat × Nat))
  readySent : Bool
deriving DecidableEq, Repr

/-- The sha256 input of the VID of CSSProtocol._try_finalize: the session id
together with the echo pairs (point, value) sorted as tuples; the hash
itself is modeled by its input. -/
def vidOf (sid : String) (echoes : List (Nat × Fp)) : String × List (Nat × Nat) :=
  (sid, (echoes.map (fun e => (e.1, e.2.val))).mergeSort
    (fun a b => a.1 < b.1 ∨ (a.1 = b.1 ∧ a.2 ≤ b.2)))

/-- Recording an echo in the per-session dict: an existing point keeps its
position and gets the new value, a new point is appended (CPython dict
update semantics). -/
def insertEcho (echoes : List (Nat × Fp)) (pt : Nat) (v : Fp) : List (Nat × Fp) :=
  if echoes.any (fun e => e.1 = pt) then
    echoes.map (fun e => if e.1 = pt then (pt, v) else e)
  else echoes ++ [(pt, v)]

/-- CSSProtocol._derive_share: Lagrange interpolation of the first f + 1
recorded echo points, evaluated at x = party_id. -/
def deriveShare (partyId f : Nat) (echoes : List (Nat × Fp)) : Fp :=
  let pts := (echoes.take (f + 1)).map (fun e => ((e.1 : Fp), e.2))
  ∑ i ∈ Finset.range pts.length,
    (pts.getD i (0, 0)).2 *
      ((∏ j ∈ (Finset.range pts.length).erase i,
          (((partyId : Fp)) - (pts.getD j (0, 0)).1)) /
       (∏ j ∈ (Finset.range pts.length).erase i,
          ((pts.getD i (0, 0)).1 - (pts.getD j (0, 0)).1)))

/-- CSSProtocol._try_finalize (src/protocols/css.py): only a pending session
with at least f + 1 recorded echo points transitions; it becomes finalized,
computes the VID from the session id and the sorted echo pairs, and derives
the local share from the echoes if no direct share was received. -/
def tryFinalize (partyId f : Nat) (s : CSSSession) : CSSSession :=
  if s.status ≠ CSSStatus.pending then s
  else if s.echoes.length < f + 1 then s
  else
    { s with
      status := CSSStatus.finalized
      vid := some (vidOf s.sid s.echoes)
      share := if s.share.isNone then some (deriveShare partyId f s.echoes) else s.share }

/-- CSSProtocol.handle_echo: record the echo point, try to finalize, then
broadcast READY once f + 1 echoes are recorded (the broadcast itself is a
network effect; only the ready_sent flag is state). -/
def cssHandleEcho (partyId f : Nat) (s : CSSSession) (pt : Nat) (v : Fp) : CSSSession :=
  let s1 := tryFinalize partyId f { s with echoes := insertEcho s.echoes pt v }
  if ¬s1.readySent ∧ s1.echoes.length ≥ f + 1 then { s1 with readySent := true } else s1

/-- CSSProtocol.handle_ready is a no-op: READY messages are a liveness
optimization only and touch no session state. -/
def cssHandleReady (s : CSSSession) : CSSSession := s

/-- Per-instance RBC state at one party (class RBCInstance in src/rbc.py).
echoes and readies are the per-digest sender sets, flattened to
duplicate-free (digest, sender) pair lists. -/
structure RBCInstance where
  echoes : List (String × Nat)
  readies : List (String × Nat)
  sentEcho : Bool
  sentReady : Bool
  delivered : Bool
  deliveredValue : Option String
deriving DecidableEq, Repr

/-- set.add on a per-digest sender set: insert the pair unless present. -/
def addPair (l : List (String × Nat)) (pk : String) (sender : Nat) : List (String × Nat) :=
  if (pk, sender) ∈ l then l else (pk, sender) :: l

/-- Number of distinct senders recorded for one payload digest. -/
def countFor (l : List (String × Nat)) (pk : String) : Nat :=
  (l.filter (fun e => e.1 = pk)).length

/-- Amplification step of RBCProtocol._on_ready (src/rbc.py): at f + 1
distinct READYs for the digest, if READY was not yet sent, send it (a
network effect; only the sent_ready flag is state). -/
def rbcAmplify (f : Nat) (inst : RBCInstance) (payload : String) : RBCInstance :=
  if countFor inst.readies payload ≥ f + 1 ∧ ¬inst.sentReady then
    { inst with sentReady := true }
  else inst

/-- Delivery step of RBCProtocol._on_ready: at n - f distinct READYs for
the digest, if not yet delivered, set the delivered flag and value. -/
def rbcDeliver (n f : Nat) (inst : RBCInstance) (payload : String) : RBCInstance :=
  if countFor inst.readies payload ≥ n - f ∧ ¬inst.delivered then
    { inst with delivered := true, deliveredValue := some payload }
  else inst

/-- RBCProtocol._on_ready (src/rbc.py): record the READY sender for the
payload digest, then run the amplification and delivery checks in source
order.  The payload digest is the payload itself (canonical json
encoding). -/
def rbcOnReady (n f : Nat) (inst : RBCInstance) (readyFrom : Nat) (payload : String) :
    RBCInstance :=
  rbcDeliver n f
    (rbcAmplify f { inst with readies := addPair inst.readies payload readyFrom } payload)
    payload

/-- RBCProtocol._on_echo (src/rbc.py): record the ECHO sender for the
digest; at n - f distinct ECHOs for the same digest, if READY was not yet
sent, send READY and process the own READY through _on_ready. -/
def rbcOnEcho (n f selfId : Nat) (inst : RBCInstance) (echoer : Nat) (payload : String) :
    RBCInstance :=
  let i1 := { inst with echoes := addPair inst.echoes payload echoer }
  if countFor i1.echoes payload ≥ n - f ∧ ¬i1.sentReady then
    rbcOnReady n f { i1 with sentReady := true } selfId payload
  else i1

/-- Borrow bit of a one-bit subtraction y - r - b (plain-bit model of the
borrow update of _bit_subtraction). -/
def boolBorrowOut (y r b : Bool) : Bool := (!y && (r || b)) || (r && b)

/-- Plain-bit model of the _bit_subtraction loop: difference bits. -/
def boolBitSub (borrow : Bool) : List Bool → List Bool → List Bool
  | y :: ys, r :: rs => (xor (xor y r) borrow) :: boolBitSub (boolBorrowOut y r borrow) ys rs
  | _, _ => []

/-- Plain-bit model of the _bit_subtraction loop: final borrow. -/
def boolBitSubBorrow (borrow : Bool) : List Bool → List Bool → Bool
  | y :: ys, r :: rs => boolBitSubBorrow (boolBorrowOut y r borrow) ys rs
  | _, _ => borrow

/-- Plain-bit model of the greater_than scan. -/
def boolGTGo (prefixEq result : Bool) : List Bool → List Bool → Bool
  | a :: as', b :: bs' =>
    boolGTGo (prefixEq && (a == b)) (result || (prefixEq && a && !b)) as' bs'
  | _, _ => result

/-- Number of active parties a position beats: the plain count behind
wins[i] and the rank arguments of the auction proof. -/
def winsCount (bids : List Nat) (i : Nat) : Nat :=
  (((List.range bids.length).filter (fun j => j ≠ i))).countP
    (fun j => bids.getD j 0 < bids.getD i 0)

/-- The LSB-first plain bits of x on K positions (spec side). -/
def natBitsLSB (x K : Nat) : List Bool :=
  (List.range K).map (fun k => decide (x / 2 ^ k % 2 = 1))

/-- Hypotheses of the auction circuit at the reconstruction level: all
bids below 2^NUM_BITS and pairwise distinct, and one NUM_BITS-long pool
of consumed random bits per position (spec side). -/
def goodInput (bids : List Nat) (rbs : List (List Bool)) : Prop :=
  (∀ b ∈ bids, b < 2 ^ NUM_BITS) ∧ bids.Nodup ∧ rbs.length = bids.length ∧
    (∀ r ∈ rbs, r.length = NUM_BITS)

/-- The second-highest active bid: the maximum bid among active parties
other than the winner w. -/
def secondHighestBid (activeSet : List Nat) (bid : Nat → Nat) (w : Nat) : Nat :=
  ((activeSet.filter (fun t => t ≠ w)).map bid).foldr max 0

/-- Concrete bid assignment of the seed scenario (party 1 bids 5, party 2
bids 20, party 3 bids 13, party 4 bids 7). -/
def demoBid (t : Nat) : Nat :=
  if t = 1 then 5 else if t = 2 then 20 else if t = 3 then 13 else 7

/-- Concrete random-bit pools for the seed scenario: one all-false pool of
NUM_BITS bits per party. -/
def demoRbs : List (List Bool) :=
  [List.replicate NUM_BITS false, List.replicate NUM_BITS false,
    List.replicate NUM_BITS false, List.replicate NUM_BITS false]

/-!  Theorems.  -/

/-- Fermat inversion agrees with field inversion on nonzero elements. -/
theorem fpow_eq_inv (a : Fp) (ha : a ≠ 0) : a ^ (PRIME - 2) = a⁻¹ := by
  apply eq_inv_of_mul_eq_one_left
  have h1 : a ^ (PRIME - 2) * a = a ^ (PRIME - 1) := by
    rw [← pow_succ]
    congr 1
  rw [h1]
  exact ZMod.pow_card_sub_one_eq_one ha

theorem neg_two_ne_zero : (-2 : Fp) ≠ 0 := by
  intro h
  have h2 : (2 : Fp) = 0 := by linear_combination -h
  exact absurd h2 (by decide)

theorem invNeg2_eq : invNeg2 = (-2 : Fp)⁻¹ := fpow_eq_inv _ neg_two_ne_zero

theorem isSecondOf_vals :
    isSecondOf 0 = 0 ∧ isSecondOf 1 = 0 ∧ isSecondOf 2 = 1 ∧ isSecondOf 3 = 0 := by
  refine ⟨?_, ?_, ?_, ?_⟩
  · unfold isSecondOf
    ring_nf
  · unfold isSecondOf
    ring_nf
  · unfold isSecondOf
    rw [invNeg2_eq, show (2 : Fp) * (2 - 1) * (2 - 3) = -2 by ring]
    exact inv_mul_cancel₀ neg_two_ne_zero
  · unfold isSecondOf
    ring_nf

/-- C6: in F_p with p = 2^127 - 1 the m = 4 second-place expression
wins * (wins - 1) * (wins - 3) * inverse(-2) equals 1 at wins = 2 and 0 at
wins in {0, 1, 3}; hence with wins the sum of three 0/1 comparison
indicators, is_second reconstructs to 1 exactly when two of the three
indicators are 1, i.e. when the party beats exactly two of the other three
active parties. -/
theorem isSecond_indicator (g1 g2 g3 : Bool) :
    isSecondOf 2 = 1 ∧
    (∀ w : Fp, w = 0 ∨ w = 1 ∨ w = 3 → isSecondOf w = 0) ∧
    (isSecondOf (castBit g1 + castBit g2 + castBit g3) =
      if g1.toNat + g2.toNat + g3.toNat = 2 then 1 else 0) := by
  obtain ⟨h0, h1, h2, h3⟩ := isSecondOf_vals
  refine ⟨h2, ?_, ?_⟩
  · rintro w (rfl | rfl | rfl)
    · exact h0
    · exact h1
    · exact h3
  · cases g1 <;> cases g2 <;> cases g3 <;>
      simp only [castBit, Bool.toNat, if_true, if_false] <;> norm_num
    · exact h0
    · exact h1
    · exact h1
    · exact h2
    · exact h1
    · exact h2
    · exact h2
    · exact h3

/-- C10: FieldElement.inverse raises ZeroDivisionError exactly on the zero
element; on a nonzero element a it returns a value c with a * c = 1; and
a / b = a * b.inverse(), so division raises exactly on a zero divisor and
is total on nonzero divisors. -/
theorem inverse_truediv_spec (a b : Fp) :
    (inverse a = Except.error "ZeroDivisionError" ↔ a = 0) ∧
    (a ≠ 0 → ∃ c, inverse a = Except.ok c ∧ a * c = 1) ∧
    (truediv a b = Except.error "ZeroDivisionError" ↔ b = 0) ∧
    (b ≠ 0 → truediv a b = Except.ok (a * b⁻¹)) := by
  refine ⟨?_, ?_, ?_, ?_⟩
  · unfold inverse
    by_cases h : a = 0 <;> simp [h]
  · intro ha
    refine ⟨a⁻¹, ?_, mul_inv_cancel₀ ha⟩
    unfold inverse
    rw [if_neg ha, fpow_eq_inv a ha]
  · unfold truediv inverse
    by_cases h : b = 0 <;> simp [h, Except.map]
  · intro hb
    unfold truediv inverse
    rw [if_neg hb, fpow_eq_inv b hb]
    rfl

/-- Witness for C10 at a = 2, b = 3. -/
theorem inverse_truediv_spec_witness :
    (2 : Fp) ≠ 0 ∧ ∃ c, inverse 2 = Except.ok c ∧ (2 : Fp) * c = 1 :=
  ⟨by decide, (inverse_truediv_spec 2 3).2.1 (by decide)⟩

/-- C2 counterexample: with active set {1, 2, 3, 4} (n = 4, f = 1) and all
four reshares arrived before RESHARE_TIMEOUT, multiply recombines all four
sub-dealer shares: the combined set is the full active set, not a set
truncated to the first n - f = 3 elements (and no per-gate ACS instance
mul:gate_id exists anywhere in the multiplication path). -/
theorem multiplyUsedSet_not_truncated :
    multiplyUsedSet [1, 2, 3, 4] [1, 2, 3, 4] [1, 2, 3, 4] = [1, 2, 3, 4] ∧
    (multiplyUsedSet [1, 2, 3, 4] [1, 2, 3, 4] [1, 2, 3, 4]).length ≠ 4 - 1 := by
  decide

/-- C2 amended: multiply runs no per-gate ACS.  The recombined subset is the
full active set when every active-set reshare arrived within
RESHARE_TIMEOUT; otherwise it is the subset of active members whose
reshares arrived by the end of the fallback wait, which is sorted,
contained in the active set, and of size at least n - f when at least
n - f active reshares arrived. -/
theorem multiplyUsedSet_spec (active arrT arrF : List Nat) (n f : Nat)
    (hsorted : active.Sorted (· ≤ ·)) :
    ((∀ pid ∈ active, pid ∈ arrT) → multiplyUsedSet active arrT arrF = active) ∧
    (¬(∀ pid ∈ active, pid ∈ arrT) →
      multiplyUsedSet active arrT arrF = active.filter (fun pid => pid ∈ arrF) ∧
      (multiplyUsedSet active arrT arrF).Sorted (· ≤ ·) ∧
      multiplyUsedSet active arrT arrF ⊆ active ∧
      ((active.filter (fun pid => pid ∈ arrF)).length ≥ n - f →
        (multiplyUsedSet active arrT arrF).length ≥ n - f)) := by
  have hall : (active.all (fun pid => pid ∈ arrT)) = true ↔ ∀ pid ∈ active, pid ∈ arrT := by
    simp [List.all_eq_true]
  constructor
  · intro h
    unfold multiplyUsedSet
    rw [if_pos (hall.mpr h)]
  · intro h
    have hno : ¬(active.all (fun pid => pid ∈ arrT) = true) := fun hc => h (hall.mp hc)
    have heq : multiplyUsedSet active arrT arrF = active.filter (fun pid => pid ∈ arrF) := by
      unfold multiplyUsedSet
      rw [if_neg hno]
    refine ⟨heq, ?_, ?_, ?_⟩
    · rw [heq]
      exact hsorted.filter _
    · rw [heq]
      exact List.filter_subset' _
    · intro hc
      rw [heq]
      exact hc

/-- Witness for the amended C2 with active set {1, 2, 3} and reshare 3
missing at the timeout. -/
theorem multiplyUsedSet_spec_witness :
    ([1, 2, 3] : List Nat).Sorted (· ≤ ·) ∧
    (¬(∀ pid ∈ ([1, 2, 3] : List Nat), pid ∈ ([1, 2] : List Nat)) →
      multiplyUsedSet [1, 2, 3] [1, 2] [1, 2, 3] =
        ([1, 2, 3] : List Nat).filter (fun pid => pid ∈ ([1, 2, 3] : List Nat)) ∧
      (multiplyUsedSet [1, 2, 3] [1, 2] [1, 2, 3]).Sorted (· ≤ ·) ∧
      multiplyUsedSet [1, 2, 3] [1, 2] [1, 2, 3] ⊆ [1, 2, 3] ∧
      ((([1, 2, 3] : List Nat).filter (fun pid => pid ∈ ([1, 2, 3] : List Nat))).length ≥ 4 - 1 →
        (multiplyUsedSet [1, 2, 3] [1, 2] [1, 2, 3]).length ≥ 4 - 1)) :=
  ⟨by decide, (multiplyUsedSet_spec [1, 2, 3] [1, 2] [1, 2, 3] 4 1 (by decide)).2⟩

/-- C3 counterexample: two runs of multiply in which the same four reshares
are eventually received, but in the second run reshare 4 arrives only
after RESHARE_TIMEOUT: the recombined subsets differ, so the value
computed depends on elapsed time and not only on the received evidence. -/
theorem multiplyUsedSet_time_dependent :
    multiplyUsedSet [1, 2, 3, 4] [1, 2, 3] [1, 2, 3] ≠
      multiplyUsedSet [1, 2, 3, 4] [1, 2, 3, 4] [1, 2, 3, 4] := by
  decide

/-- C3 amended: progress of multiply is bounded by the internal
RESHARE_TIMEOUT and the chosen reshare subset depends on it: with
active set {1, 2, 3, 4}, all reshares in time gives the full set while a
late reshare 4 gives the n - f subset {1, 2, 3} (the party orchestrator
likewise bounds CSS acceptance with a 3 s timeout and the ACS with a 15 s
timeout; only CSS finalization itself and the RBC/BA thresholds are purely
evidence driven). -/
theorem multiplyUsedSet_timeout_branches :
    multiplyUsedSet [1, 2, 3, 4] [1, 2, 3, 4] [1, 2, 3, 4] = [1, 2, 3, 4] ∧
    multiplyUsedSet [1, 2, 3, 4] [1, 2, 3] [1, 2, 3] = [1, 2, 3] := by
  decide

theorem castBit_toNat (b : Bool) : castBit b = ((b.toNat : Nat) : Fp) := by
  cases b <;> simp [castBit]

theorem fieldXorPub_bit (y r : Bool) : fieldXorPub y.toNat (castBit r) = castBit (xor y r) := by
  cases y <;> cases r <;> simp [fieldXorPub, castBit]

theorem fieldXor_bit (a b : Bool) : fieldXor (castBit a) (castBit b) = castBit (xor a b) := by
  cases a <;> cases b <;> simp [fieldXor, castBit] <;> norm_num

theorem fieldBorrow_bit (y r b : Bool) :
    fieldBorrow y.toNat (castBit r) (castBit b) = castBit (boolBorrowOut y r b) := by
  cases y <;> cases r <;> cases b <;>
    simp [fieldBorrow, fieldXor, castBit, boolBorrowOut] <;> norm_num

theorem bitSubGo_bridge : ∀ (yb rb : List Bool) (b : Bool),
    bitSubtractionGo (castBit b) (yb.map Bool.toNat) (rb.map castBit) =
      (boolBitSub b yb rb).map castBit
  | [], [], _ => rfl
  | [], _ :: _, _ => rfl
  | _ :: _, [], _ => rfl
  | y :: ys, r :: rs, b => by
    simp only [List.map_cons, bitSubtractionGo, boolBitSub]
    rw [fieldXorPub_bit, fieldXor_bit, fieldBorrow_bit, bitSubGo_bridge ys rs]

theorem perBitSub (y r b : Bool) :
    y.toNat + 2 * (boolBorrowOut y r b).toNat = (xor (xor y r) b).toNat + r.toNat + b.toNat := by
  cases y <;> cases r <;> cases b <;> decide

theorem lsbVal_lt : ∀ bs : List Bool, lsbVal bs < 2 ^ bs.length
  | [] => by simp [lsbVal]
  | b :: bs => by
    have h := lsbVal_lt bs
    simp only [lsbVal, List.length_cons, pow_succ]
    cases b <;> simp <;> omega

theorem boolBitSub_length : ∀ (yb rb : List Bool) (b : Bool), rb.length ≤ yb.length →
    (boolBitSub b yb rb).length = rb.length
  | _, [], _, _ => by cases ‹List Bool› <;> rfl
  | y :: ys, r :: rs, b, h => by
    simp only [boolBitSub, List.length_cons]
    rw [boolBitSub_length ys rs _ (by simpa using h)]
  | [], r :: rs, _, h => by simp at h

theorem boolBitSub_val : ∀ (yb rb : List Bool) (b : Bool), yb.length = rb.length →
    lsbVal (boolBitSub b yb rb) + lsbVal rb + b.toNat =
      lsbVal yb + 2 ^ rb.length * (boolBitSubBorrow b yb rb).toNat
  | [], [], b, _ => by simp [boolBitSub, boolBitSubBorrow, lsbVal]
  | [], _ :: _, _, h => by simp at h
  | _ :: _, [], _, h => by simp at h
  | y :: ys, r :: rs, b, h => by
    have ih := boolBitSub_val ys rs (boolBorrowOut y r b) (by simpa using h)
    have hp := perBitSub y r b
    simp only [boolBitSub, boolBitSubBorrow, lsbVal, List.length_cons, pow_succ]
    cases hB : boolBitSubBorrow (boolBorrowOut y r b) ys rs <;>
      rw [hB] at ih <;>
      cases y <;> cases r <;> cases b <;>
      simp_all <;> omega

theorem boolBitSub_take : ∀ (yb rb : List Bool) (b : Bool),
    boolBitSub b yb rb = boolBitSub b (yb.take rb.length) rb
  | _, [], _ => by cases ‹List Bool› <;> rfl
  | [], _ :: _, _ => rfl
  | y :: ys, r :: rs, b => by
    simp only [boolBitSub, List.length_cons, List.take_succ_cons]
    rw [← boolBitSub_take ys rs]

theorem lsbVal_getD : ∀ (bs : List Bool) (k : Nat), k < bs.length →
    lsbVal bs / 2 ^ k % 2 = (bs.getD k false).toNat
  | b :: bs, 0, _ => by
    simp only [lsbVal, pow_zero, Nat.div_one, List.getD_cons_zero]
    cases b <;> simp <;> omega
  | b :: bs, k + 1, h => by
    have ih := lsbVal_getD bs k (by simpa using h)
    have h2 : lsbVal (b :: bs) / 2 ^ (k + 1) = lsbVal bs / 2 ^ k := by
      have hstep : lsbVal (b :: bs) / 2 = lsbVal bs := by
        simp only [lsbVal]
        cases b <;> simp <;> omega
      rw [pow_succ, mul_comm, ← Nat.div_div_eq_div_mul, hstep]
    rw [h2, List.getD_cons_succ, ih]
  | [], _, h => by simp at h

theorem lsbVal_append_single : ∀ (l : List Bool) (b : Bool),
    lsbVal (l ++ [b]) = lsbVal l + 2 ^ l.length * b.toNat
  | [], b => by cases b <;> simp [lsbVal]
  | a :: l, b => by
    have ih := lsbVal_append_single l b
    rw [List.cons_append]
    simp only [lsbVal]
    rw [ih, List.length_cons, pow_succ]
    ring

theorem lsbVal_range_bits (y : Nat) : ∀ K,
    lsbVal ((List.range K).map (fun i => decide (y / 2 ^ i % 2 = 1))) = y % 2 ^ K
  | 0 => by simp [lsbVal, Nat.mod_one]
  | K + 1 => by
    rw [List.range_succ, List.map_append]
    simp only [List.map_cons, List.map_nil]
    rw [lsbVal_append_single, lsbVal_range_bits y K]
    simp only [List.length_map, List.length_range]
    have hmm : y % 2 ^ (K + 1) = y % 2 ^ K + 2 ^ K * (y / 2 ^ K % 2) := by
      rw [pow_succ]
      exact Nat.mod_mul
    rw [hmm]
    congr 1
    rcases Nat.mod_two_eq_zero_or_one (y / 2 ^ K) with h | h <;> simp [h]

theorem natBits_eq_boolBits (y K : Nat) :
    (List.range K).map (fun i => y / 2 ^ i % 2) =
      ((List.range K).map (fun i => decide (y / 2 ^ i % 2 = 1))).map Bool.toNat := by
  rw [List.map_map]
  apply List.map_congr_left
  intro i _
  rcases Nat.mod_two_eq_zero_or_one (y / 2 ^ i) with h | h <;> simp [h]

/-- C4: bit-decomposition correctness.  For 0 <= x < 2^K and any 0/1 values
of the K consumed shared random bits, when the public opening returns the
exact integer y = x + sum of 2^j r_j, decompose returns exactly K shared
bits and the k-th one reconstructs to the k-th binary digit of x, LSB
first. -/
theorem decompose_correct (K x : Nat) (rb : List Bool) (hlen : rb.length = K)
    (hx : x < 2 ^ K) :
    (decompose (x + lsbVal rb) K (rb.map castBit)).length = K ∧
    (∀ k, k < K →
      (decompose (x + lsbVal rb) K (rb.map castBit)).getD k 0 = ((x / 2 ^ k % 2 : Nat) : Fp)) := by
  have hR : lsbVal rb < 2 ^ K := by
    have := lsbVal_lt rb
    rwa [hlen] at this
  set y := x + lsbVal rb with hy
  set ybK : List Bool := (List.range K).map (fun i => decide (y / 2 ^ i % 2 = 1)) with hybK
  set ybK1 : List Bool := (List.range (K + 1)).map (fun i => decide (y / 2 ^ i % 2 = 1))
    with hybK1
  have htake : ybK1.take K = ybK := by
    rw [hybK1, hybK, ← List.map_take, List.take_range, Nat.min_eq_left (Nat.le_succ K)]
  set outK : List Bool := boolBitSub false ybK rb with houtK
  have houtlen : outK.length = K := by
    rw [houtK, boolBitSub_length ybK rb false (by simp [hybK, hlen])]
    exact hlen
  have hdec : decompose y K (rb.map castBit) = outK.map castBit := by
    unfold decompose bitSubtraction
    rw [natBits_eq_boolBits y (K + 1), show (0 : Fp) = castBit false from rfl, ← hybK1,
      bitSubGo_bridge, boolBitSub_take ybK1 rb false, hlen, htake, ← houtK]
    rw [List.take_of_length_le]
    rw [List.length_map, houtlen]
  have hval : lsbVal outK = x := by
    have hv := boolBitSub_val ybK rb false (by simp [hybK, hlen])
    rw [← houtK, hlen, hybK, lsbVal_range_bits y K] at hv
    have hql : y / 2 ^ K ≤ 1 := by
      apply Nat.le_of_lt_succ
      apply Nat.div_lt_of_lt_mul
      rw [hy]
      omega
    have hqm := Nat.div_add_mod y (2 ^ K)
    have houtlt : lsbVal outK < 2 ^ K := by
      have := lsbVal_lt outK
      rwa [houtlen] at this
    rcases Nat.le_one_iff_eq_zero_or_eq_one.mp hql with hq | hq <;>
      rw [hq] at hqm <;>
      cases hB : boolBitSubBorrow false ybK rb <;>
      rw [hB] at hv <;>
      simp only [Bool.toNat_false, Bool.toNat_true] at hv <;>
      omega
  refine ⟨?_, ?_⟩
  · rw [hdec, List.length_map, houtlen]
  · intro k hk
    rw [hdec]
    have hget : (outK.map castBit).getD k 0 = castBit (outK.getD k false) := by
      rw [show (0 : Fp) = castBit false from rfl, List.getD_map]
    rw [hget, castBit_toNat, ← lsbVal_getD outK k (by omega), hval]

/-- Witness for C4 at K = 5, x = 13, random bits 1,0,1,0,0 (r = 5). -/
theorem decompose_correct_witness :
    ([true, false, true, false, false] : List Bool).length = 5 ∧ 13 < 2 ^ 5 ∧
    ((decompose (13 + lsbVal [true, false, true, false, false]) 5
        ([true, false, true, false, false].map castBit)).length = 5 ∧
      (∀ k, k < 5 →
        (decompose (13 + lsbVal [true, false, true, false, false]) 5
          ([true, false, true, false, false].map castBit)).getD k 0 =
          ((13 / 2 ^ k % 2 : Nat) : Fp))) :=
  ⟨by decide, by decide,
    decompose_correct 5 13 [true, false, true, false, false] (by decide) (by decide)⟩

theorem msbVal_cons (a : Bool) (as : List Bool) :
    msbVal (a :: as) = a.toNat * 2 ^ as.length + msbVal as := by
  unfold msbVal
  rw [List.reverse_cons, lsbVal_append_single, List.length_reverse]
  ring

theorem msbVal_lt (bs : List Bool) : msbVal bs < 2 ^ bs.length := by
  have := lsbVal_lt bs.reverse
  rwa [List.length_reverse] at this

theorem gtGo_bridge : ∀ (as bs : List Bool) (pe res : Bool),
    ¬(res = true ∧ pe = true) →
    greaterThanGo (castBit pe) (castBit res) (as.map castBit) (bs.map castBit) =
      castBit (boolGTGo pe res as bs)
  | [], [], _, _, _ => rfl
  | [], _ :: _, _, _, _ => rfl
  | _ :: _, [], _, _, _ => rfl
  | a :: as, b :: bs, pe, res, hinv => by
    simp only [List.map_cons, greaterThanGo, boolGTGo]
    have h1 : castBit pe * (1 - castBit a - castBit b + 2 * (castBit a * castBit b)) =
        castBit (pe && (a == b)) := by
      cases pe <;> cases a <;> cases b <;> simp [castBit] <;> norm_num
    have h2 : castBit res + castBit pe * (castBit a - castBit a * castBit b) =
        castBit (res || (pe && a && !b)) := by
      cases pe <;> cases a <;> cases b <;> cases res <;> simp_all [castBit] <;> norm_num
    rw [h1, h2]
    exact gtGo_bridge as bs _ _ (by cases pe <;> cases a <;> cases b <;> cases res <;>
      simp_all)

theorem boolGTGo_val : ∀ (as bs : List Bool) (pe res : Bool), as.length = bs.length →
    boolGTGo pe res as bs = (res || (pe && decide (msbVal as > msbVal bs)))
  | [], [], pe, res, _ => by
    simp [boolGTGo, msbVal, lsbVal]
  | [], _ :: _, _, _, h => by simp at h
  | _ :: _, [], _, _, h => by simp at h
  | a :: as, b :: bs, pe, res, h => by
    have hlen : as.length = bs.length := by simpa using h
    have ih := boolGTGo_val as bs (pe && (a == b)) (res || (pe && a && !b)) hlen
    have hA := msbVal_lt as
    have hB := msbVal_lt bs
    rw [hlen] at hA
    rw [show boolGTGo pe res (a :: as) (b :: bs) =
      boolGTGo (pe && (a == b)) (res || (pe && a && !b)) as bs from rfl, ih,
      msbVal_cons, msbVal_cons, hlen]
    cases a <;> cases b <;> cases pe <;> cases res <;>
      simp [decide_eq_decide] <;>
      omega

/-- C5: comparison correctness.  For equal-length MSB-first bit vectors
whose entries reconstruct to 0/1 values, greater_than reconstructs to 1
when the integer with bits a is strictly greater than the integer with
bits b and to 0 otherwise. -/
theorem greaterThan_correct (as bs : List Bool) (h : as.length = bs.length) :
    greaterThan (as.map castBit) (bs.map castBit) =
      if msbVal as > msbVal bs then 1 else 0 := by
  unfold greaterThan
  rw [show (1 : Fp) = castBit true from rfl]
  rw [show (0 : Fp) = castBit false from rfl]
  rw [gtGo_bridge as bs true false (by simp), boolGTGo_val as bs true false h]
  by_cases hgt : msbVal as > msbVal bs <;> simp [hgt, castBit]

/-- Witness for C5 at a = 101 (MSB first, value 5) and b = 011 (value 3). -/
theorem greaterThan_correct_witness :
    ([true, false, true] : List Bool).length = ([false, true, true] : List Bool).length ∧
    greaterThan ([true, false, true].map castBit) ([false, true, true].map castBit) =
      if msbVal [true, false, true] > msbVal [false, true, true] then 1 else 0 :=
  ⟨by decide, greaterThan_correct [true, false, true] [false, true, true] (by decide)⟩

theorem evaluate_toPoly : ∀ (coeffs : List Fp) (x : Fp),
    evaluate coeffs x = (toPoly coeffs).eval x
  | [], x => by simp [evaluate, toPoly]
  | c :: cs, x => by
    have ih := evaluate_toPoly cs x
    simp only [evaluate, List.foldr_cons, toPoly, Polynomial.eval_add, Polynomial.eval_C,
      Polynomial.eval_mul, Polynomial.eval_X]
    rw [show (cs.foldr (fun c acc => acc * x + c) 0) = evaluate cs x from rfl, ih]
    ring

theorem toPoly_degree_lt : ∀ coeffs : List Fp, (toPoly coeffs).degree < (coeffs.length : WithBot ℕ)
  | [] => by
    simp [toPoly]
  | c :: cs => by
    have ih := toPoly_degree_lt cs
    simp only [toPoly, List.length_cons, Nat.cast_withBot] at ih ⊢
    apply lt_of_le_of_lt (Polynomial.degree_add_le _ _)
    apply max_lt
    · apply lt_of_le_of_lt Polynomial.degree_C_le
      rw [show (0 : WithBot ℕ) = WithBot.some 0 from rfl]
      exact WithBot.coe_lt_coe.mpr (Nat.succ_pos _)
    · rw [Polynomial.degree_mul, Polynomial.degree_X]
      cases hdp : (toPoly cs).degree with
      | bot =>
        rw [show ((1 : WithBot ℕ) + ⊥) = ⊥ from rfl]
        exact WithBot.bot_lt_coe _
      | coe k =>
        rw [hdp] at ih
        have hk : k < cs.length := WithBot.coe_lt_coe.mp ih
        have h3 : (1 : WithBot ℕ) + WithBot.some k = WithBot.some (k + 1) := by
          rw [show (1 : WithBot ℕ) = WithBot.some 1 from rfl, add_comm]
          rfl
        rw [h3]
        exact WithBot.coe_lt_coe.mpr (by omega)

theorem interpolate_list_correct (coeffs xs : List Fp)
    (hdeg : coeffs.length ≤ xs.length) (hnodup : xs.Nodup) :
    interpolateAtZero (xs.map (fun t => (t, evaluate coeffs t))) = evaluate coeffs 0 := by
  classical
  set n := xs.length with hn
  set v : Nat → Fp := fun i => xs.getD i 0 with hv
  set pts : List (Fp × Fp) := xs.map (fun t => (t, evaluate coeffs t)) with hpts
  have hptslen : pts.length = n := by
    rw [hpts, List.length_map]
  have hfst : ∀ i, i < n → (pts.getD i (0, 0)).1 = v i := by
    intro i hi
    rw [hpts, List.getD_eq_getElem _ _ (by rw [List.length_map]; exact hi),
      List.getElem_map, hv]
    dsimp only
    rw [List.getD_eq_getElem _ _ hi]
  have hsnd : ∀ i, i < n → (pts.getD i (0, 0)).2 = (toPoly coeffs).eval (v i) := by
    intro i hi
    rw [hpts, List.getD_eq_getElem _ _ (by rw [List.length_map]; exact hi),
      List.getElem_map, hv]
    dsimp only
    rw [List.getD_eq_getElem _ _ hi]
    exact evaluate_toPoly coeffs _
  have hinj : Set.InjOn v (Finset.range n) := by
    intro i hi j hj hij
    simp only [Finset.coe_range, Set.mem_Iio] at hi hj
    rw [hv] at hij
    dsimp only at hij
    rw [List.getD_eq_getElem _ _ hi, List.getD_eq_getElem _ _ hj] at hij
    exact (hnodup.getElem_inj_iff).mp hij
  have hdeglt : (toPoly coeffs).degree < ((Finset.range n).card : WithBot ℕ) := by
    rw [Finset.card_range]
    refine lt_of_lt_of_le (toPoly_degree_lt coeffs) ?_
    simp only [Nat.cast_withBot]
    exact WithBot.coe_le_coe.mpr hdeg
  have hkey := Lagrange.eq_interpolate (v := v) (s := Finset.range n)
    (f := toPoly coeffs) hinj hdeglt
  have heval0 : (toPoly coeffs).eval 0 =
      ∑ i ∈ Finset.range n,
        (toPoly coeffs).eval (v i) * (Lagrange.basis (Finset.range n) v i).eval 0 := by
    conv_lhs => rw [hkey]
    rw [Lagrange.interpolate_apply, Polynomial.eval_finset_sum]
    apply Finset.sum_congr rfl
    intro i _
    rw [Polynomial.eval_mul, Polynomial.eval_C]
  have hbasis : ∀ i ∈ Finset.range n, (Lagrange.basis (Finset.range n) v i).eval 0 =
      (∏ j ∈ (Finset.range n).erase i, (-(v j))) /
        (∏ j ∈ (Finset.range n).erase i, (v i - v j)) := by
    intro i _
    rw [Lagrange.basis, Polynomial.eval_prod, div_eq_mul_inv, ← Finset.prod_inv_distrib,
      ← Finset.prod_mul_distrib]
    apply Finset.prod_congr rfl
    intro j _
    rw [Lagrange.basisDivisor, Polynomial.eval_mul, Polynomial.eval_C, Polynomial.eval_sub,
      Polynomial.eval_X, Polynomial.eval_C]
    ring
  have hmain : interpolateAtZero pts = (toPoly coeffs).eval 0 := by
    unfold interpolateAtZero
    rw [hptslen, heval0]
    apply Finset.sum_congr rfl
    intro i hi
    have hilt : i < n := Finset.mem_range.mp hi
    rw [hsnd i hilt, hbasis i hi]
    congr 1
    congr 1
    · apply Finset.prod_congr rfl
      intro j hj
      rw [hfst j (Finset.mem_range.mp (Finset.mem_of_mem_erase hj))]
    · apply Finset.prod_congr rfl
      intro j hj
      rw [hfst i hilt, hfst j (Finset.mem_range.mp (Finset.mem_of_mem_erase hj))]
  rw [hmain, evaluate_toPoly]

theorem openValue_consistent (f : Nat) (coeffs : List Fp) (pids : List Nat)
    (hdeg : coeffs.length ≤ f + 1) (hpn : pids.Nodup) (hplt : ∀ p ∈ pids, p < PRIME)
    (hlen : f + 1 ≤ pids.length) :
    openValue (pids.map (fun p => (p, evaluate coeffs (p : Fp)))) f = evaluate coeffs 0 := by
  unfold openValue
  rw [List.map_map, ← List.map_take]
  have hcomp :
      (pids.take (f + 1)).map
          ((fun pr : Nat × Fp => ((pr.1 : Fp), pr.2)) ∘
            (fun p : Nat => (p, evaluate coeffs (p : Fp)))) =
        ((pids.take (f + 1)).map (fun p : Nat => (p : Fp))).map
          (fun t => (t, evaluate coeffs t)) := by
    rw [List.map_map]
    rfl
  rw [hcomp]
  apply interpolate_list_correct
  · rw [List.length_map, List.length_take]
    omega
  · apply List.Nodup.map_on
    · intro p hp q hq hpq
      have hp' : p < PRIME := hplt p (List.take_subset _ _ hp)
      have hq' : q < PRIME := hplt q (List.take_subset _ _ hq)
      have : ((p : Fp)).val = ((q : Fp)).val := by rw [hpq]
      rwa [ZMod.val_cast_of_lt hp', ZMod.val_cast_of_lt hq'] at this
    · exact hpn.sublist (List.take_sublist _ _)

/-- C7: open idempotence / interpolation round trip.  For every polynomial
given by its coefficient list (secret v = constant term first) of degree
at most the number of interpolation points minus one, Lagrange
interpolation at x = 0 through points (x_i, p(x_i)) with pairwise
distinct x_i returns exactly p(0) = v; consequently open_value on
consistent shares of v (points (pid, p(pid)) for distinct party ids)
returns v regardless of which f + 1 received shares are used. -/
theorem open_idempotence (f : Nat) (coeffs xs : List Fp) (pids : List Nat)
    (hdeg : coeffs.length ≤ xs.length) (hnodup : xs.Nodup)
    (hdeg2 : coeffs.length ≤ f + 1) (hpn : pids.Nodup)
    (hplt : ∀ p ∈ pids, p < PRIME) (hlen : f + 1 ≤ pids.length) :
    interpolateAtZero (xs.map (fun t => (t, evaluate coeffs t))) = evaluate coeffs 0 ∧
    openValue (pids.map (fun p => (p, evaluate coeffs (p : Fp)))) f = evaluate coeffs 0 :=
  ⟨interpolate_list_correct coeffs xs hdeg hnodup,
   openValue_consistent f coeffs pids hdeg2 hpn hplt hlen⟩

/-- Witness for C7: f = 1, the degree-1 polynomial 7 + 3x, interpolation
points at x = 1, 2, and received shares from parties 1, 2, 3. -/
theorem open_idempotence_witness :
    (([7, 3] : List Fp).length ≤ ([1, 2] : List Fp).length ∧ ([1, 2] : List Fp).Nodup ∧
      ([7, 3] : List Fp).length ≤ 1 + 1 ∧ ([1, 2, 3] : List Nat).Nodup ∧
      (∀ p ∈ ([1, 2, 3] : List Nat), p < PRIME) ∧ 1 + 1 ≤ ([1, 2, 3] : List Nat).length) ∧
    (interpolateAtZero (([1, 2] : List Fp).map (fun t => (t, evaluate [7, 3] t))) =
        evaluate [7, 3] 0 ∧
      openValue (([1, 2, 3] : List Nat).map (fun p => (p, evaluate [7, 3] (p : Fp)))) 1 =
        evaluate [7, 3] 0) :=
  ⟨⟨by decide, by decide, by decide, by decide, by decide, by decide⟩,
   open_idempotence 1 [7, 3] [1, 2] [1, 2, 3] (by decide) (by decide) (by decide) (by decide)
     (by decide) (by decide)⟩

/-- C8: CSS finalization invariant.  handle_ready never touches session
state; a pending session transitions to finalized exactly when the
recorded distinct echo-point count reaches f + 1 (a duplicate point does
not grow the count); at that transition the VID is computed from the
session id and the recorded echo pairs and a share is present; and at a
finalized session a further echo changes neither the status nor the VID. -/
theorem css_finalization_spec (partyId f : Nat) (s : CSSSession) (pt : Nat) (v : Fp) :
    cssHandleReady s = s ∧
    (insertEcho s.echoes pt v).length =
      (if s.echoes.any (fun e => e.1 = pt) then s.echoes.length else s.echoes.length + 1) ∧
    (s.status = CSSStatus.pending →
      ((cssHandleEcho partyId f s pt v).status = CSSStatus.finalized ↔
        (insertEcho s.echoes pt v).length ≥ f + 1) ∧
      ((insertEcho s.echoes pt v).length ≥ f + 1 →
        (cssHandleEcho partyId f s pt v).vid = some (vidOf s.sid (insertEcho s.echoes pt v)) ∧
        (cssHandleEcho partyId f s pt v).share.isSome = true)) ∧
    (s.status = CSSStatus.finalized →
      (cssHandleEcho partyId f s pt v).status = CSSStatus.finalized ∧
      (cssHandleEcho partyId f s pt v).vid = s.vid) := by
  have hlen : (insertEcho s.echoes pt v).length =
      (if s.echoes.any (fun e => e.1 = pt) then s.echoes.length else s.echoes.length + 1) := by
    unfold insertEcho
    split_ifs with h
    · rw [List.length_map]
    · rw [List.length_append, List.length_cons, List.length_nil]
  have hstat : ∀ t : CSSSession,
      ((if ¬t.readySent ∧ t.echoes.length ≥ f + 1 then { t with readySent := true } else t) :
        CSSSession).status = t.status := by
    intro t
    split_ifs <;> rfl
  have hvid : ∀ t : CSSSession,
      ((if ¬t.readySent ∧ t.echoes.length ≥ f + 1 then { t with readySent := true } else t) :
        CSSSession).vid = t.vid := by
    intro t
    split_ifs <;> rfl
  have hshare : ∀ t : CSSSession,
      ((if ¬t.readySent ∧ t.echoes.length ≥ f + 1 then { t with readySent := true } else t) :
        CSSSession).share = t.share := by
    intro t
    split_ifs <;> rfl
  refine ⟨rfl, hlen, ?_, ?_⟩
  · intro hp
    unfold cssHandleEcho
    rw [hstat, hvid, hshare]
    unfold tryFinalize
    dsimp only
    rw [hp]
    rw [if_neg (fun hc => hc rfl)]
    by_cases hge : (insertEcho s.echoes pt v).length ≥ f + 1
    · rw [if_neg (by omega)]
      refine ⟨⟨fun _ => hge, fun _ => rfl⟩, fun _ => ⟨rfl, ?_⟩⟩
      cases hs : s.share <;> simp [hs]
    · rw [if_pos (by omega)]
      refine ⟨⟨fun hc => ?_, fun hge2 => absurd hge2 hge⟩, fun hge2 => absurd hge2 hge⟩
      simp at hc
  · intro hf
    unfold cssHandleEcho
    rw [hstat, hvid]
    unfold tryFinalize
    dsimp only
    rw [hf]
    rw [if_pos (by decide)]
    exact ⟨rfl, rfl⟩

/-- Witness for C8: party 3, f = 1, a pending session on input_1 holding one
echo; the echo from point 2 is the second distinct point and finalizes. -/
theorem css_finalization_spec_witness :
    (({ sid := "input_1", share := none, echoes := [(1, (5 : Fp))],
        status := CSSStatus.pending, vid := none, readySent := false } : CSSSession).status =
      CSSStatus.pending) ∧
    (((cssHandleEcho 3 1
          { sid := "input_1", share := none, echoes := [(1, (5 : Fp))],
            status := CSSStatus.pending, vid := none, readySent := false } 2 7).status =
        CSSStatus.finalized ↔
      (insertEcho [(1, (5 : Fp))] 2 7).length ≥ 1 + 1) ∧
      ((insertEcho [(1, (5 : Fp))] 2 7).length ≥ 1 + 1 →
        (cssHandleEcho 3 1
            { sid := "input_1", share := none, echoes := [(1, (5 : Fp))],
              status := CSSStatus.pending, vid := none, readySent := false } 2 7).vid =
          some (vidOf "input_1" (insertEcho [(1, (5 : Fp))] 2 7)) ∧
        (cssHandleEcho 3 1
            { sid := "input_1", share := none, echoes := [(1, (5 : Fp))],
              status := CSSStatus.pending, vid := none, readySent := false } 2 7).share.isSome =
          true)) :=
  ⟨rfl, (css_finalization_spec 3 1
    { sid := "input_1", share := none, echoes := [(1, (5 : Fp))],
      status := CSSStatus.pending, vid := none, readySent := false } 2 7).2.2.1 rfl⟩

theorem rbcAmplify_fields (f : Nat) (inst : RBCInstance) (pk : String) :
    (rbcAmplify f inst pk).readies = inst.readies ∧
    (rbcAmplify f inst pk).delivered = inst.delivered ∧
    (rbcAmplify f inst pk).deliveredValue = inst.deliveredValue := by
  unfold rbcAmplify
  split_ifs <;> exact ⟨rfl, rfl, rfl⟩

theorem rbcOnReady_fields (n f : Nat) (inst : RBCInstance) (rf : Nat) (pk : String) :
    (rbcOnReady n f inst rf pk).readies = addPair inst.readies pk rf ∧
    ((rbcOnReady n f inst rf pk).delivered =
      (if countFor (addPair inst.readies pk rf) pk ≥ n - f then true else inst.delivered)) ∧
    (rbcOnReady n f inst rf pk).deliveredValue =
      (if countFor (addPair inst.readies pk rf) pk ≥ n - f ∧ inst.delivered = false
       then some pk else inst.deliveredValue) := by
  unfold rbcOnReady rbcDeliver
  obtain ⟨ha1, ha2, ha3⟩ :=
    rbcAmplify_fields f { inst with readies := addPair inst.readies pk rf } pk
  dsimp only at ha1 ha2 ha3
  simp only [ha1, ha2, ha3]
  by_cases h3 : countFor (addPair inst.readies pk rf) pk ≥ n - f
  · by_cases hd : inst.delivered = true
    · rw [if_neg (fun hc => hc.2 hd)]
      refine ⟨ha1, ?_, ?_⟩
      · rw [ha2, if_pos h3, hd]
      · rw [ha3, if_neg (fun hc => by rw [hd] at hc; exact absurd hc.2 (by simp))]
    · have hd' : inst.delivered = false := by simpa using hd
      rw [if_pos ⟨h3, fun hc => hd hc⟩]
      refine ⟨by simp [ha1], ?_, ?_⟩
      · simp [h3]
      · simp [h3, hd']
  · rw [if_neg (fun hc => h3 hc.1)]
    refine ⟨ha1, ?_, ?_⟩
    · rw [ha2, if_neg h3]
    · rw [ha3, if_neg (fun hc => h3 hc.1)]

theorem rbcOnEcho_delivered (n f selfId : Nat) (inst : RBCInstance) (e : Nat) (pk : String)
    (hd : inst.delivered = true) :
    (rbcOnEcho n f selfId inst e pk).delivered = true ∧
    (rbcOnEcho n f selfId inst e pk).deliveredValue = inst.deliveredValue := by
  unfold rbcOnEcho
  dsimp only
  by_cases h1 : countFor (addPair inst.echoes pk e) pk ≥ n - f ∧ ¬inst.sentReady
  · rw [if_pos h1]
    obtain ⟨-, h2, h3⟩ := rbcOnReady_fields n f
      { inst with echoes := addPair inst.echoes pk e, sentReady := true } selfId pk
    rw [h2, h3]
    refine ⟨?_, ?_⟩ <;> split_ifs <;> simp_all
  · rw [if_neg h1]
    exact ⟨hd, rfl⟩

/-- C9: RBC delivery rule and integrity.  At a not-yet-delivered instance,
_on_ready delivers exactly when the distinct READY-sender count of the
received digest reaches n - f after recording, and then the delivered
value is that payload; at a delivered instance neither a further READY
nor a further ECHO changes the delivered flag or the delivered value. -/
theorem rbc_delivery_spec (n f selfId : Nat) (inst : RBCInstance) (readyFrom echoer : Nat)
    (payload : String) :
    (inst.delivered = false →
      ((rbcOnReady n f inst readyFrom payload).delivered = true ↔
        countFor (addPair inst.readies payload readyFrom) payload ≥ n - f) ∧
      ((rbcOnReady n f inst readyFrom payload).delivered = true →
        (rbcOnReady n f inst readyFrom payload).deliveredValue = some payload)) ∧
    (inst.delivered = true →
      (rbcOnReady n f inst readyFrom payload).delivered = true ∧
      (rbcOnReady n f inst readyFrom payload).deliveredValue = inst.deliveredValue ∧
      (rbcOnEcho n f selfId inst echoer payload).delivered = true ∧
      (rbcOnEcho n f selfId inst echoer payload).deliveredValue = inst.deliveredValue) := by
  obtain ⟨h1, h2, h3⟩ := rbcOnReady_fields n f inst readyFrom payload
  constructor
  · intro hd
    constructor
    · rw [h2]
      by_cases hc : countFor (addPair inst.readies payload readyFrom) payload ≥ n - f
      · simp [hc]
      · simp [hc, hd]
    · intro hdel
      rw [h3]
      by_cases hc : countFor (addPair inst.readies payload readyFrom) payload ≥ n - f
      · rw [if_pos ⟨hc, hd⟩]
      · exfalso
        rw [h2, if_neg hc, hd] at hdel
        cases hdel
  · intro hd
    obtain ⟨e1, e2⟩ := rbcOnEcho_delivered n f selfId inst echoer payload hd
    refine ⟨?_, ?_, e1, e2⟩
    · rw [h2]
      split_ifs
      · rfl
      · exact hd
    · rw [h3, if_neg (fun hc => by rw [hd] at hc; exact absurd hc.2 (by simp))]

/-- Witness for C9: n = 4, f = 1, an undelivered instance with READYs for
digest hello from parties 2 and 3; the READY from party 4 is the third
distinct sender and delivers. -/
theorem rbc_delivery_spec_witness :
    (({ echoes := [], readies := [("hello", 2), ("hello", 3)], sentEcho := false,
        sentReady := false, delivered := false, deliveredValue := none } : RBCInstance).delivered
      = false) ∧
    (((rbcOnReady 4 1
          { echoes := [], readies := [("hello", 2), ("hello", 3)], sentEcho := false,
            sentReady := false, delivered := false, deliveredValue := none } 4
          "hello").delivered = true ↔
        countFor (addPair [("hello", 2), ("hello", 3)] "hello" 4) "hello" ≥ 4 - 1) ∧
      ((rbcOnReady 4 1
          { echoes := [], readies := [("hello", 2), ("hello", 3)], sentEcho := false,
            sentReady := false, delivered := false, deliveredValue := none } 4
          "hello").delivered = true →
        (rbcOnReady 4 1
          { echoes := [], readies := [("hello", 2), ("hello", 3)], sentEcho := false,
            sentReady := false, delivered := false, deliveredValue := none } 4
          "hello").deliveredValue = some "hello")) :=
  ⟨rfl, (rbc_delivery_spec 4 1 1
    { echoes := [], readies := [("hello", 2), ("hello", 3)], sentEcho := false,
      sentReady := false, delivered := false, deliveredValue := none } 4 2 "hello").1 rfl⟩

theorem maskFromBits_enumFrom : ∀ (rb : List Bool) (k : Nat) (acc : Fp),
    ((rb.map castBit).enumFrom k).foldl (fun a p => a + ((2 ^ p.1 : Nat) : Fp) * p.2) acc =
      acc + ((2 ^ k : Nat) : Fp) * ((lsbVal rb : Nat) : Fp)
  | [], k, acc => by simp [lsbVal]
  | b :: rb, k, acc => by
    have ih := maskFromBits_enumFrom rb (k + 1) (acc + ((2 ^ k : Nat) : Fp) * castBit b)
    simp only [List.map_cons, List.enumFrom, List.foldl_cons]
    rw [ih]
    simp only [lsbVal]
    cases b <;> simp [castBit] <;> push_cast <;> ring

theorem maskFromBits_val (rb : List Bool) :
    maskFromBits (rb.map castBit) = ((lsbVal rb : Nat) : Fp) := by
  unfold maskFromBits
  rw [show (rb.map castBit).enum = (rb.map castBit).enumFrom 0 from rfl,
    maskFromBits_enumFrom rb 0 0]
  push_cast
  ring

theorem boolBits_of_lsbVal (bs : List Bool) :
    (List.range bs.length).map (fun k => decide (lsbVal bs / 2 ^ k % 2 = 1)) = bs := by
  apply List.ext_getElem (by simp)
  intro k h1 h2
  simp only [List.getElem_map, List.getElem_range]
  rw [lsbVal_getD bs k h2, List.getD_eq_getElem _ _ h2]
  cases bs[k] <;> simp

theorem decompose_eq (K x : Nat) (rb : List Bool) (hlen : rb.length = K)
    (hx : x < 2 ^ K) :
    decompose (x + lsbVal rb) K (rb.map castBit) = (natBitsLSB x K).map castBit := by
  have hR : lsbVal rb < 2 ^ K := by
    have := lsbVal_lt rb
    rwa [hlen] at this
  set y := x + lsbVal rb with hy
  set ybK : List Bool := (List.range K).map (fun i => decide (y / 2 ^ i % 2 = 1)) with hybK
  set ybK1 : List Bool := (List.range (K + 1)).map (fun i => decide (y / 2 ^ i % 2 = 1))
    with hybK1
  have htake : ybK1.take K = ybK := by
    rw [hybK1, hybK, ← List.map_take, List.take_range, Nat.min_eq_left (Nat.le_succ K)]
  set outK : List Bool := boolBitSub false ybK rb with houtK
  have houtlen : outK.length = K := by
    rw [houtK, boolBitSub_length ybK rb false (by simp [hybK, hlen])]
    exact hlen
  have hdec : decompose y K (rb.map castBit) = outK.map castBit := by
    unfold decompose bitSubtraction
    rw [natBits_eq_boolBits y (K + 1), show (0 : Fp) = castBit false from rfl, ← hybK1,
      bitSubGo_bridge, boolBitSub_take ybK1 rb false, hlen, htake, ← houtK]
    rw [List.take_of_length_le]
    rw [List.length_map, houtlen]
  have hval : lsbVal outK = x := by
    have hv := boolBitSub_val ybK rb false (by simp [hybK, hlen])
    rw [← houtK, hlen, hybK, lsbVal_range_bits y K] at hv
    have hql : y / 2 ^ K ≤ 1 := by
      apply Nat.le_of_lt_succ
      apply Nat.div_lt_of_lt_mul
      rw [hy]
      omega
    have hqm := Nat.div_add_mod y (2 ^ K)
    have houtlt : lsbVal outK < 2 ^ K := by
      have := lsbVal_lt outK
      rwa [houtlen] at this
    rcases Nat.le_one_iff_eq_zero_or_eq_one.mp hql with hq | hq <;>
      rw [hq] at hqm <;>
      cases hB : boolBitSubBorrow false ybK rb <;>
      rw [hB] at hv <;>
      simp only [Bool.toNat_false, Bool.toNat_true] at hv <;>
      omega
  rw [hdec]
  congr 1
  rw [show natBitsLSB x K =
    (List.range outK.length).map (fun k => decide (lsbVal outK / 2 ^ k % 2 = 1)) by
      rw [houtlen, hval]
      rfl]
  exact (boolBits_of_lsbVal outK).symm

theorem msbVal_reverse (l : List Bool) : msbVal l.reverse = lsbVal l := by
  unfold msbVal
  rw [List.reverse_reverse]

theorem natBitsLSB_val (x K : Nat) (hx : x < 2 ^ K) : lsbVal (natBitsLSB x K) = x := by
  unfold natBitsLSB
  rw [lsbVal_range_bits x K, Nat.mod_eq_of_lt hx]

theorem auctionBits_eq (bids : List Nat) (rbs : List (List Bool)) (i : Nat)
    (hb : bids.getD i 0 < 2 ^ NUM_BITS) (hr : (rbs.getD i []).length = NUM_BITS) :
    auctionBits bids rbs i = ((natBitsLSB (bids.getD i 0) NUM_BITS).reverse).map castBit := by
  unfold auctionBits
  have h64 : bids.getD i 0 + lsbVal (rbs.getD i []) < PRIME := by
    have h1 := lsbVal_lt (rbs.getD i [])
    rw [hr] at h1
    have h2 : (2 : Nat) ^ NUM_BITS + 2 ^ NUM_BITS < PRIME := by decide
    omega
  have hcast : (((bids.getD i 0 : Nat) : Fp) + maskFromBits ((rbs.getD i []).map castBit)).val
      = bids.getD i 0 + lsbVal (rbs.getD i []) := by
    rw [maskFromBits_val, ← Nat.cast_add, ZMod.val_cast_of_lt h64]
  rw [hcast, decompose_eq NUM_BITS (bids.getD i 0) (rbs.getD i []) hr hb, List.map_reverse]

theorem auctionGT_eq (bids : List Nat) (rbs : List (List Bool)) (i j : Nat)
    (hij : i ≠ j)
    (hbi : bids.getD i 0 < 2 ^ NUM_BITS) (hbj : bids.getD j 0 < 2 ^ NUM_BITS)
    (hri : (rbs.getD i []).length = NUM_BITS) (hrj : (rbs.getD j []).length = NUM_BITS)
    (hne : bids.getD i 0 ≠ bids.getD j 0) :
    auctionGT bids rbs i j = castBit (decide (bids.getD j 0 < bids.getD i 0)) := by
  have hgt : ∀ a b : Nat, a < 2 ^ NUM_BITS → b < 2 ^ NUM_BITS →
      greaterThan (((natBitsLSB a NUM_BITS).reverse).map castBit)
        (((natBitsLSB b NUM_BITS).reverse).map castBit) = if b < a then 1 else 0 := by
    intro a b ha hb2
    rw [greaterThan_correct _ _ (by simp [natBitsLSB]),
      msbVal_reverse, msbVal_reverse, natBitsLSB_val a NUM_BITS ha,
      natBitsLSB_val b NUM_BITS hb2]
  unfold auctionGT
  rcases lt_trichotomy i j with h | h | h
  · rw [if_pos h, auctionBits_eq bids rbs i hbi hri, auctionBits_eq bids rbs j hbj hrj,
      hgt _ _ hbi hbj]
    by_cases hc : bids.getD j 0 < bids.getD i 0 <;> simp [hc, castBit]
  · exact absurd h hij
  · rw [if_neg (by omega), auctionBits_eq bids rbs i hbi hri,
      auctionBits_eq bids rbs j hbj hrj, hgt _ _ hbj hbi]
    rcases Nat.lt_trichotomy (bids.getD i 0) (bids.getD j 0) with hlt | heq | hgt2
    · rw [if_pos hlt]
      have hd : decide (bids.getD j 0 < bids.getD i 0) = false := by
        simp only [decide_eq_false_iff_not]
        omega
      rw [hd]
      simp [castBit]
    · exact absurd heq hne
    · rw [if_neg (by omega)]
      have hd : decide (bids.getD j 0 < bids.getD i 0) = true := by
        simp only [decide_eq_true_eq]
        omega
      rw [hd]
      simp [castBit]

theorem goodInput_bid_lt (bids : List Nat) (rbs : List (List Bool))
    (h : goodInput bids rbs) (k : Nat) (hk : k < bids.length) :
    bids.getD k 0 < 2 ^ NUM_BITS := by
  rw [List.getD_eq_getElem _ _ hk]
  exact h.1 _ (List.getElem_mem _)

theorem goodInput_rb_len (bids : List Nat) (rbs : List (List Bool))
    (h : goodInput bids rbs) (k : Nat) (hk : k < bids.length) :
    (rbs.getD k []).length = NUM_BITS := by
  have hk2 : k < rbs.length := by
    rw [h.2.2.1]
    exact hk
  rw [List.getD_eq_getElem _ _ hk2]
  exact h.2.2.2 _ (List.getElem_mem _)

theorem goodInput_ne (bids : List Nat) (rbs : List (List Bool))
    (h : goodInput bids rbs) (i j : Nat) (hi : i < bids.length) (hj : j < bids.length)
    (hij : i ≠ j) : bids.getD i 0 ≠ bids.getD j 0 := by
  rw [List.getD_eq_getElem _ _ hi, List.getD_eq_getElem _ _ hj]
  intro he
  exact hij ((h.2.1.getElem_inj_iff).mp he)

theorem foldl_mul_castBit : ∀ (l : List Nat) (g : Nat → Bool) (acc : Bool),
    l.foldl (fun a j => a * castBit (g j)) (castBit acc) = castBit (acc && l.all g)
  | [], g, acc => by simp
  | x :: l, g, acc => by
    have h : castBit acc * castBit (g x) = castBit (acc && g x) := by
      cases acc <;> cases g x <;> simp [castBit]
    simp only [List.foldl_cons, List.all_cons]
    rw [h, foldl_mul_castBit l g (acc && g x), Bool.and_assoc]

theorem foldl_congr_fn : ∀ (l : List Nat) (f g : Fp → Nat → Fp) (init : Fp),
    (∀ acc : Fp, ∀ j ∈ l, f acc j = g acc j) → l.foldl f init = l.foldl g init
  | [], _, _, _, _ => rfl
  | x :: l, f, g, init, h => by
    simp only [List.foldl_cons]
    rw [h init x (by simp)]
    exact foldl_congr_fn l f g _ (fun acc j hj => h acc j (by simp [hj]))

theorem foldl_add_castBit : ∀ (l : List Nat) (g : Nat → Bool) (c : Fp),
    l.foldl (fun a j => a + castBit (g j)) c = c + ((l.countP g : Nat) : Fp)
  | [], g, c => by simp
  | x :: l, g, c => by
    simp only [List.foldl_cons]
    rw [foldl_add_castBit l g (c + castBit (g x)), List.countP_cons]
    cases hg : g x <;> simp [castBit, hg] <;> push_cast <;> ring

theorem foldl_add_zero_fn : ∀ (l : List Nat) (F : Nat → Fp) (c : Fp),
    (∀ j ∈ l, F j = 0) → l.foldl (fun a j => a + F j) c = c
  | [], _, _, _ => rfl
  | x :: l, F, c, h => by
    simp only [List.foldl_cons]
    rw [h x (by simp), add_zero]
    exact foldl_add_zero_fn l F c (fun j hj => h j (by simp [hj]))

theorem foldl_add_single : ∀ (l : List Nat) (F : Nat → Fp) (c : Fp) (i0 : Nat),
    l.count i0 = 1 → (∀ j ∈ l, j ≠ i0 → F j = 0) →
    l.foldl (fun a j => a + F j) c = c + F i0
  | [], _, _, _, hc, _ => by simp at hc
  | x :: l, F, c, i0, hc, hz => by
    simp only [List.foldl_cons]
    by_cases hx : x = i0
    · subst hx
      have hl0 : l.count x = 0 := by
        rw [List.count_cons_self] at hc
        omega
      have hzl : ∀ j ∈ l, F j = 0 := by
        intro j hj
        apply hz j (by simp [hj])
        intro hji
        subst hji
        exact (List.count_eq_zero.mp hl0) hj
      rw [foldl_add_zero_fn l F _ hzl]
    · rw [hz x (by simp) (fun he => hx he), add_zero]
      apply foldl_add_single l F c i0 ?_ (fun j hj hji => hz j (by simp [hj]) hji)
      rwa [List.count_cons_of_ne (fun he => hx he.symm)] at hc

theorem filterNe_length (m i : Nat) (hi : i < m) :
    ((List.range m).filter (fun j => j ≠ i)).length = m - 1 := by
  have hcong : (List.range m).filter (fun j => j ≠ i) =
      (List.range m).filter (fun j => j != i) :=
    List.filter_congr (fun x _ => by by_cases hxi : x = i <;> simp [hxi, bne])
  rw [hcong, ← List.Nodup.erase_eq_filter (List.nodup_range m) i,
    List.length_erase_of_mem (List.mem_range.mpr hi), List.length_range]

theorem filterNe_mem (m i j : Nat) :
    j ∈ (List.range m).filter (fun k => k ≠ i) ↔ j < m ∧ j ≠ i := by
  rw [List.mem_filter, List.mem_range]
  simp

theorem filterNe_count (m i i0 : Nat) (hi0 : i0 < m) (hne : i0 ≠ i) :
    ((List.range m).filter (fun k => k ≠ i)).count i0 = 1 := by
  apply List.count_eq_one_of_mem ((List.nodup_range m).filter _)
  exact (filterNe_mem m i i0).mpr ⟨hi0, hne⟩

theorem auctionGT_eq2 (bids : List Nat) (rbs : List (List Bool)) (h : goodInput bids rbs)
    (i j : Nat) (hi : i < bids.length) (hj : j < bids.length) (hij : i ≠ j) :
    auctionGT bids rbs i j = castBit (decide (bids.getD j 0 < bids.getD i 0)) :=
  auctionGT_eq bids rbs i j hij (goodInput_bid_lt bids rbs h i hi)
    (goodInput_bid_lt bids rbs h j hj) (goodInput_rb_len bids rbs h i hi)
    (goodInput_rb_len bids rbs h j hj) (goodInput_ne bids rbs h i j hi hj hij)

theorem auctionIsMax_eq (bids : List Nat) (rbs : List (List Bool)) (h : goodInput bids rbs)
    (i : Nat) (hi : i < bids.length) :
    auctionIsMax bids rbs i =
      castBit (((List.range bids.length).filter (fun j => j ≠ i)).all
        (fun j => decide (bids.getD j 0 < bids.getD i 0))) := by
  unfold auctionIsMax
  rw [foldl_congr_fn _ _
    (fun a j => a * castBit (decide (bids.getD j 0 < bids.getD i 0))) 1 ?hcong]
  case hcong =>
    intro acc j hjmem
    obtain ⟨hjm, hjne⟩ := (filterNe_mem bids.length i j).mp hjmem
    rw [auctionGT_eq2 bids rbs h i j hi hjm (fun he => hjne he.symm)]
  rw [show (1 : Fp) = castBit true from rfl, foldl_mul_castBit, Bool.true_and]

theorem auctionIsMin_eq (bids : List Nat) (rbs : List (List Bool)) (h : goodInput bids rbs)
    (i : Nat) (hi : i < bids.length) :
    auctionIsMin bids rbs i =
      castBit (((List.range bids.length).filter (fun j => j ≠ i)).all
        (fun j => decide (bids.getD i 0 < bids.getD j 0))) := by
  unfold auctionIsMin
  rw [foldl_congr_fn _ _
    (fun a j => a * castBit (decide (bids.getD i 0 < bids.getD j 0))) 1 ?hcong]
  case hcong =>
    intro acc j hjmem
    obtain ⟨hjm, hjne⟩ := (filterNe_mem bids.length i j).mp hjmem
    rw [auctionGT_eq2 bids rbs h j i hjm hi hjne]
  rw [show (1 : Fp) = castBit true from rfl, foldl_mul_castBit, Bool.true_and]

theorem auctionWins_eq (bids : List Nat) (rbs : List (List Bool)) (h : goodInput bids rbs)
    (i : Nat) (hi : i < bids.length) :
    auctionWins bids rbs i = ((winsCount bids i : Nat) : Fp) := by
  unfold auctionWins winsCount
  rw [foldl_congr_fn _ _
    (fun a j => a + castBit (decide (bids.getD j 0 < bids.getD i 0))) 0 ?hcong]
  case hcong =>
    intro acc j hjmem
    obtain ⟨hjm, hjne⟩ := (filterNe_mem bids.length i j).mp hjmem
    rw [auctionGT_eq2 bids rbs h i j hi hjm (fun he => hjne he.symm)]
  rw [foldl_add_castBit, zero_add]

theorem winsCount_le (bids : List Nat) (i : Nat) (hi : i < bids.length) :
    winsCount bids i ≤ bids.length - 1 := by
  unfold winsCount
  calc (((List.range bids.length).filter (fun j => j ≠ i))).countP
        (fun j => decide (bids.getD j 0 < bids.getD i 0)) ≤
      ((List.range bids.length).filter (fun j => j ≠ i)).length := List.countP_le_length _
    _ = bids.length - 1 := filterNe_length bids.length i hi

theorem isSecondOf_nat (w : Nat) (hw : w ≤ 3) :
    isSecondOf ((w : Nat) : Fp) = if w = 2 then 1 else 0 := by
  obtain ⟨h0, h1, h2, h3⟩ := isSecondOf_vals
  interval_cases w
  · simpa using h0
  · simpa using h1
  · simpa using h2
  · simpa using h3

theorem allBeats_iff (bids : List Nat) (i : Nat) (hi : i < bids.length) :
    (((List.range bids.length).filter (fun j => j ≠ i)).all
        (fun j => decide (bids.getD j 0 < bids.getD i 0)) = true) ↔
      winsCount bids i = bids.length - 1 := by
  unfold winsCount
  rw [List.all_eq_true, ← filterNe_length bids.length i hi, List.countP_eq_length]

theorem allBeaten_iff (bids : List Nat) (rbs : List (List Bool)) (h : goodInput bids rbs)
    (i : Nat) (hi : i < bids.length) :
    (((List.range bids.length).filter (fun j => j ≠ i)).all
        (fun j => decide (bids.getD i 0 < bids.getD j 0)) = true) ↔
      winsCount bids i = 0 := by
  unfold winsCount
  rw [List.all_eq_true, List.countP_eq_zero]
  constructor
  · intro hall j hj
    have := hall j hj
    simp only [decide_eq_true_eq] at this ⊢
    omega
  · intro hall j hj
    have := hall j hj
    obtain ⟨hjm, hjne⟩ := (filterNe_mem bids.length i j).mp hj
    have hne := goodInput_ne bids rbs h i j hi hjm (fun he => hjne he.symm)
    simp only [decide_eq_true_eq] at this ⊢
    omega

theorem auctionIsSecond_eq (bids : List Nat) (rbs : List (List Bool))
    (h : goodInput bids rbs) (hm : bids.length = 3 ∨ bids.length = 4)
    (i : Nat) (hi : i < bids.length) :
    auctionIsSecond bids rbs i =
      if winsCount bids i = bids.length - 2 then 1 else 0 := by
  have hwle : winsCount bids i ≤ bids.length - 1 := winsCount_le bids i hi
  rcases hm with hm | hm
  · unfold auctionIsSecond
    rw [if_pos hm, auctionIsMax_eq bids rbs h i hi, auctionIsMin_eq bids rbs h i hi]
    have hx := allBeats_iff bids i hi
    have hn := allBeaten_iff bids rbs h i hi
    set A := ((List.range bids.length).filter (fun j => j ≠ i)).all
      (fun j => decide (bids.getD j 0 < bids.getD i 0)) with hAdef
    set B := ((List.range bids.length).filter (fun j => j ≠ i)).all
      (fun j => decide (bids.getD i 0 < bids.getD j 0)) with hBdef
    cases hA2 : A <;> cases hB2 : B <;> rw [hA2] at hx <;> rw [hB2] at hn <;>
      simp at hx hn
    · rw [if_pos (by omega)]
      simp [castBit]
    · rw [if_neg (by omega)]
      simp [castBit]
    · rw [if_neg (by omega)]
      simp [castBit]
    · exfalso
      omega
  · unfold auctionIsSecond
    rw [if_neg (by omega), auctionWins_eq bids rbs h i hi,
      isSecondOf_nat _ (by omega)]
    rw [hm]

theorem two_le_length (l : List Nat) (a b : Nat) (ha : a ∈ l) (hb : b ∈ l) (hab : a ≠ b) :
    2 ≤ l.length := by
  match l with
  | [] => simp at ha
  | [x] =>
    rw [List.mem_singleton] at ha hb
    exact absurd (ha.trans hb.symm) hab
  | x :: y :: t => simp

theorem winsCount_max (bids : List Nat) (iw : Nat) (hiw : iw < bids.length)
    (hmax : ∀ j, j < bids.length → j ≠ iw → bids.getD j 0 < bids.getD iw 0) :
    winsCount bids iw = bids.length - 1 := by
  unfold winsCount
  rw [← filterNe_length bids.length iw hiw]
  apply List.countP_eq_length.mpr
  intro j hj
  obtain ⟨hjm, hjne⟩ := (filterNe_mem bids.length iw j).mp hj
  simp only [decide_eq_true_eq]
  exact hmax j hjm hjne

theorem winsCount_second (bids : List Nat) (iw i2 : Nat)
    (hiw : iw < bids.length) (hi2 : i2 < bids.length) (hne : i2 ≠ iw)
    (hmax : ∀ j, j < bids.length → j ≠ iw → bids.getD j 0 < bids.getD iw 0)
    (hsecond : ∀ j, j < bids.length → j ≠ iw → j ≠ i2 →
      bids.getD j 0 < bids.getD i2 0) :
    winsCount bids i2 = bids.length - 2 := by
  unfold winsCount
  have hsplit := List.length_eq_countP_add_countP
    (p := fun k => decide (bids.getD k 0 < bids.getD i2 0))
    ((List.range bids.length).filter (fun k => k ≠ i2))
  have hcompl : ((List.range bids.length).filter (fun k => k ≠ i2)).countP
      (fun a => ¬(decide (bids.getD a 0 < bids.getD i2 0)) = true) =
      ((List.range bids.length).filter (fun k => k ≠ i2)).count iw := by
    apply List.countP_congr
    intro x hx
    obtain ⟨hxm, hxne⟩ := (filterNe_mem bids.length i2 x).mp hx
    by_cases hxw : x = iw
    · subst hxw
      have h1 : bids.getD i2 0 < bids.getD x 0 := hmax i2 hi2 hne
      simp only [decide_eq_true_eq, beq_iff_eq]
      constructor
      · intro _
        trivial
      · intro _
        omega
    · have h1 : bids.getD x 0 < bids.getD i2 0 := hsecond x hxm hxw hxne
      simp only [decide_eq_true_eq, beq_iff_eq]
      constructor
      · intro hc
        exact absurd h1 hc
      · intro hc
        exact absurd hc hxw
  have hcnt : ((List.range bids.length).filter (fun k => k ≠ i2)).count iw = 1 :=
    filterNe_count bids.length i2 iw hiw (fun he => hne he.symm)
  have hlen := filterNe_length bids.length i2 hi2
  omega

theorem winsCount_other (bids : List Nat) (iw i2 j : Nat)
    (hiw : iw < bids.length) (hi2 : i2 < bids.length) (hne : i2 ≠ iw)
    (hj : j < bids.length) (hjw : j ≠ iw) (hj2 : j ≠ i2)
    (hmax : ∀ k, k < bids.length → k ≠ iw → bids.getD k 0 < bids.getD iw 0)
    (hsecond : ∀ k, k < bids.length → k ≠ iw → k ≠ i2 →
      bids.getD k 0 < bids.getD i2 0) :
    winsCount bids j ≤ bids.length - 3 := by
  unfold winsCount
  have hsplit := List.length_eq_countP_add_countP
    (p := fun k => decide (bids.getD k 0 < bids.getD j 0))
    ((List.range bids.length).filter (fun k => k ≠ j))
  have h2 : 2 ≤ ((List.range bids.length).filter (fun k => k ≠ j)).countP
      (fun a => ¬(decide (bids.getD a 0 < bids.getD j 0)) = true) := by
    rw [List.countP_eq_length_filter]
    apply two_le_length _ iw i2 ?_ ?_ (fun he => hne he.symm)
    · rw [List.mem_filter]
      refine ⟨(filterNe_mem bids.length j iw).mpr ⟨hiw, fun he => hjw he.symm⟩, ?_⟩
      have h1 : bids.getD j 0 < bids.getD iw 0 := hmax j hj hjw
      simp only [decide_eq_true_eq]
      omega
    · rw [List.mem_filter]
      refine ⟨(filterNe_mem bids.length j i2).mpr ⟨hi2, fun he => hj2 he.symm⟩, ?_⟩
      have h1 : bids.getD j 0 < bids.getD i2 0 := hsecond j hj hjw hj2
      simp only [decide_eq_true_eq]
      omega
  have hlen := filterNe_length bids.length j hj
  omega

theorem auctionSecondPrice_eq (bids : List Nat) (rbs : List (List Bool))
    (h : goodInput bids rbs) (hm : bids.length = 3 ∨ bids.length = 4) (iw i2 : Nat)
    (hiw : iw < bids.length) (hi2 : i2 < bids.length) (hne : i2 ≠ iw)
    (hmax : ∀ j, j < bids.length → j ≠ iw → bids.getD j 0 < bids.getD iw 0)
    (hsecond : ∀ j, j < bids.length → j ≠ iw → j ≠ i2 →
      bids.getD j 0 < bids.getD i2 0) :
    auctionSecondPrice bids rbs = ((bids.getD i2 0 : Nat) : Fp) := by
  unfold auctionSecondPrice
  rw [foldl_congr_fn _ _
    (fun a i => a + ((bids.getD i 0 : Nat) : Fp) *
      (if winsCount bids i = bids.length - 2 then 1 else 0)) 0 ?hcong]
  case hcong =>
    intro acc j hj
    rw [auctionIsSecond_eq bids rbs h hm j (List.mem_range.mp hj)]
  rw [foldl_add_single (List.range bids.length) _ 0 i2 ?hcount ?hzero]
  case hcount => exact List.count_eq_one_of_mem (List.nodup_range _) (List.mem_range.mpr hi2)
  case hzero =>
    intro j hj hj2
    by_cases hjw : j = iw
    · subst hjw
      rw [winsCount_max bids j (List.mem_range.mp hj) hmax, if_neg (by omega), mul_zero]
    · have := winsCount_other bids iw i2 j hiw hi2 hne (List.mem_range.mp hj) hjw hj2
        hmax hsecond
      rw [if_neg (by omega), mul_zero]
  rw [winsCount_second bids iw i2 hiw hi2 hne hmax hsecond, if_pos rfl, mul_one, zero_add]

theorem auctionOutputs_getD (bids : List Nat) (rbs : List (List Bool)) (j : Nat)
    (hj : j < bids.length) :
    (auctionOutputs bids rbs).getD j 0 =
      auctionIsMax bids rbs j * auctionSecondPrice bids rbs := by
  unfold auctionOutputs
  rw [List.getD_eq_getElem _ _ (by simpa using hj), List.getElem_map, List.getElem_range]

theorem auctionOutputs_correct (bids : List Nat) (rbs : List (List Bool))
    (h : goodInput bids rbs) (hm : bids.length = 3 ∨ bids.length = 4) (iw i2 : Nat)
    (hiw : iw < bids.length) (hi2 : i2 < bids.length) (hne : i2 ≠ iw)
    (hmax : ∀ j, j < bids.length → j ≠ iw → bids.getD j 0 < bids.getD iw 0)
    (hsecond : ∀ j, j < bids.length → j ≠ iw → j ≠ i2 →
      bids.getD j 0 < bids.getD i2 0) :
    (auctionOutputs bids rbs).getD iw 0 = ((bids.getD i2 0 : Nat) : Fp) ∧
    (∀ j, j < bids.length → j ≠ iw → (auctionOutputs bids rbs).getD j 0 = 0) := by
  constructor
  · rw [auctionOutputs_getD bids rbs iw hiw, auctionIsMax_eq bids rbs h iw hiw]
    have hall : (((List.range bids.length).filter (fun j => j ≠ iw)).all
        (fun j => decide (bids.getD j 0 < bids.getD iw 0))) = true := by
      rw [List.all_eq_true]
      intro j hj
      obtain ⟨hjm, hjne⟩ := (filterNe_mem bids.length iw j).mp hj
      simp only [decide_eq_true_eq]
      exact hmax j hjm hjne
    rw [hall, show castBit true = 1 from rfl, one_mul]
    exact auctionSecondPrice_eq bids rbs h hm iw i2 hiw hi2 hne hmax hsecond
  · intro j hj hjw
    rw [auctionOutputs_getD bids rbs j hj, auctionIsMax_eq bids rbs h j hj]
    have hall : (((List.range bids.length).filter (fun k => k ≠ j)).all
        (fun k => decide (bids.getD k 0 < bids.getD j 0))) = false := by
      cases hb : (((List.range bids.length).filter (fun k => k ≠ j)).all
          (fun k => decide (bids.getD k 0 < bids.getD j 0))) with
      | false => rfl
      | true =>
        exfalso
        rw [List.all_eq_true] at hb
        have h1 := hb iw ((filterNe_mem bids.length j iw).mpr ⟨hiw, fun he => hjw he.symm⟩)
        simp only [decide_eq_true_eq] at h1
        have h2 := hmax j hj hjw
        omega
    rw [hall, show castBit false = 0 from rfl, zero_mul]

theorem nodup_getD_inj (l : List Nat) (hnd : l.Nodup) (i j : Nat) (hi : i < l.length)
    (hj : j < l.length) (he : l.getD i 0 = l.getD j 0) : i = j := by
  rw [List.getD_eq_getElem _ _ hi, List.getD_eq_getElem _ _ hj] at he
  exact (List.Nodup.getElem_inj_iff hnd).mp he

theorem findIdx_self_lt (l : List Nat) (t : Nat) (ht : t ∈ l) :
    l.findIdx (fun x => x = t) < l.length :=
  List.findIdx_lt_length_of_exists ⟨t, ht, by simp⟩

theorem findIdx_self_getD (l : List Nat) (t : Nat) (ht : t ∈ l) :
    l.getD (l.findIdx (fun x => x = t)) 0 = t := by
  have hlt := findIdx_self_lt l t ht
  rw [List.getD_eq_getElem _ _ hlt]
  have h1 : (fun x => decide (x = t)) l[l.findIdx (fun x => decide (x = t))] = true :=
    List.findIdx_getElem (w := hlt)
  simpa using h1

theorem foldr_max_le (l : List Nat) (x : Nat) (hx : x ∈ l) : x ≤ l.foldr max 0 := by
  induction l with
  | nil => simp at hx
  | cons a t ih =>
    rw [List.foldr_cons]
    rcases List.mem_cons.mp hx with h | h
    · rw [h]
      exact le_max_left _ _
    · exact le_trans (ih h) (le_max_right _ _)

theorem foldr_max_mem (l : List Nat) (hne : l ≠ []) : l.foldr max 0 ∈ l := by
  induction l with
  | nil => exact absurd rfl hne
  | cons a t ih =>
    rw [List.foldr_cons]
    rcases eq_or_ne t [] with h | h
    · rw [h]
      simp
    · rcases max_choice a (t.foldr max 0) with h2 | h2 <;> rw [h2]
      · exact List.mem_cons_self _ _
      · exact List.mem_cons_of_mem _ (ih h)

/-- C1: end-to-end auction correctness for N = 4, F = 1.  Over the agreed
active set (of size 3 or 4, i.e. at most one omitting party), with pairwise
distinct bids below 2^NUM_BITS, the unique highest bidder w receives the
second-highest active bid, every other member of the active set receives 0,
and a party outside the active set receives nothing. -/
theorem auction_correct (activeSet : List Nat) (bid : Nat → Nat)
    (rbs : List (List Bool)) (w : Nat)
    (hlen : activeSet.length = 3 ∨ activeSet.length = 4)
    (hnodup : activeSet.Nodup)
    (hbid : ∀ t ∈ activeSet, bid t < 2 ^ NUM_BITS)
    (hdistinct : ∀ s ∈ activeSet, ∀ t ∈ activeSet, s ≠ t → bid s ≠ bid t)
    (hrlen : rbs.length = activeSet.length)
    (hrbits : ∀ r ∈ rbs, r.length = NUM_BITS)
    (hw : w ∈ activeSet)
    (hmax : ∀ t ∈ activeSet, t ≠ w → bid t < bid w) :
    auctionRun 4 1 w activeSet bid rbs =
      Except.ok (some ((secondHighestBid activeSet bid w : Nat) : Fp)) ∧
    (∀ p ∈ activeSet, p ≠ w →
      auctionRun 4 1 p activeSet bid rbs = Except.ok (some 0)) ∧
    (∀ p, p ∉ activeSet → auctionRun 4 1 p activeSet bid rbs = Except.ok none) := by
  classical
  set parties := activeSet.mergeSort (fun a b => a ≤ b) with hpar
  have hperm : parties.Perm activeSet := by
    rw [hpar]
    exact List.mergeSort_perm activeSet (fun a b => a ≤ b)
  have hplen : parties.length = activeSet.length := hperm.length_eq
  have hpnodup : parties.Nodup := hperm.nodup_iff.mpr hnodup
  have hpmem : ∀ t : Nat, t ∈ parties ↔ t ∈ activeSet := fun t => hperm.mem_iff
  set bids := parties.map bid with hbids
  have hblen : bids.length = parties.length := by
    rw [hbids, List.length_map]
  have hm : bids.length = 3 ∨ bids.length = 4 := by
    rw [hblen, hplen]
    exact hlen
  have hgood : goodInput bids rbs := by
    refine ⟨?_, ?_, ?_, hrbits⟩
    · intro b hb
      rw [hbids] at hb
      obtain ⟨t, ht, hbt⟩ := List.mem_map.mp hb
      rw [← hbt]
      exact hbid t ((hpmem t).mp ht)
    · rw [hbids]
      apply List.Nodup.map_on ?_ hpnodup
      intro s hs t ht hst
      by_contra hne
      exact hdistinct s ((hpmem s).mp hs) t ((hpmem t).mp ht) hne hst
    · rw [hrlen, ← hplen, hblen]
  have hbgetD : ∀ j, ∀ hj : j < parties.length, bids.getD j 0 = bid (parties.getD j 0) := by
    intro j hj
    rw [hbids, List.getD_eq_getElem _ _ (by simpa using hj), List.getElem_map,
      List.getD_eq_getElem _ _ hj]
  have hposT : ∀ j, ∀ hj : j < parties.length, parties.getD j 0 ∈ activeSet := by
    intro j hj
    rw [List.getD_eq_getElem _ _ hj]
    exact (hpmem _).mp (List.getElem_mem _)
  have hwmem : w ∈ parties := (hpmem w).mpr hw
  set iw := parties.findIdx (fun x => x = w) with hiwd
  have hiwlt : iw < parties.length := findIdx_self_lt parties w hwmem
  have hiwgetD : parties.getD iw 0 = w := findIdx_self_getD parties w hwmem
  have hex2 : ∃ t ∈ activeSet, t ≠ w := by
    by_contra hc
    push_neg at hc
    have hlen2 : 2 ≤ activeSet.length := by rcases hlen with h | h <;> omega
    have h0 : activeSet.getD 0 0 ∈ activeSet := by
      rw [List.getD_eq_getElem _ _ (by omega)]
      exact List.getElem_mem _
    have h1 : activeSet.getD 1 0 ∈ activeSet := by
      rw [List.getD_eq_getElem _ _ (by omega)]
      exact List.getElem_mem _
    have he : activeSet.getD 0 0 = activeSet.getD 1 0 := by
      rw [hc _ h0, hc _ h1]
    have := nodup_getD_inj activeSet hnodup 0 1 (by omega) (by omega) he
    omega
  obtain ⟨t0, ht0T, ht0w⟩ := hex2
  have ht0f : bid t0 ∈ (activeSet.filter (fun t => t ≠ w)).map bid :=
    List.mem_map.mpr ⟨t0, List.mem_filter.mpr ⟨ht0T, by simp [ht0w]⟩, rfl⟩
  have hfilne : (activeSet.filter (fun t => t ≠ w)).map bid ≠ [] :=
    List.ne_nil_of_mem ht0f
  have hsmem := foldr_max_mem _ hfilne
  obtain ⟨s, hsfil, hsbid⟩ := List.mem_map.mp hsmem
  obtain ⟨hsT, hsw2⟩ := List.mem_filter.mp hsfil
  have hsw : s ≠ w := by simpa using hsw2
  have hsHB : secondHighestBid activeSet bid w = bid s := by
    rw [show secondHighestBid activeSet bid w =
      ((activeSet.filter (fun t => t ≠ w)).map bid).foldr max 0 from rfl, hsbid]
  have hsecondT : ∀ t ∈ activeSet, t ≠ w → t ≠ s → bid t < bid s := by
    intro t htT htw hts
    have h1 : bid t ≤ bid s := by
      rw [hsbid]
      exact foldr_max_le _ _ (List.mem_map.mpr
        ⟨t, List.mem_filter.mpr ⟨htT, by simp [htw]⟩, rfl⟩)
    have h2 : bid t ≠ bid s := hdistinct t htT s hsT hts
    omega
  have hsmemP : s ∈ parties := (hpmem s).mpr hsT
  set i2 := parties.findIdx (fun x => x = s) with hi2d
  have hi2lt : i2 < parties.length := findIdx_self_lt parties s hsmemP
  have hi2getD : parties.getD i2 0 = s := findIdx_self_getD parties s hsmemP
  have hi2ne : i2 ≠ iw := by
    intro he
    apply hsw
    rw [← hi2getD, he, hiwgetD]
  have hposmax : ∀ j, j < bids.length → j ≠ iw → bids.getD j 0 < bids.getD iw 0 := by
    intro j hj hjw
    rw [hblen] at hj
    rw [hbgetD j hj, hbgetD iw hiwlt, hiwgetD]
    apply hmax _ (hposT j hj)
    intro he
    exact hjw (nodup_getD_inj parties hpnodup j iw hj hiwlt (he.trans hiwgetD.symm))
  have hpossec : ∀ j, j < bids.length → j ≠ iw → j ≠ i2 → bids.getD j 0 < bids.getD i2 0 := by
    intro j hj hjw hj2
    rw [hblen] at hj
    rw [hbgetD j hj, hbgetD i2 hi2lt, hi2getD]
    apply hsecondT _ (hposT j hj)
    · intro he
      exact hjw (nodup_getD_inj parties hpnodup j iw hj hiwlt (he.trans hiwgetD.symm))
    · intro he
      exact hj2 (nodup_getD_inj parties hpnodup j i2 hj hi2lt (he.trans hi2getD.symm))
  obtain ⟨hout_w, hout_o⟩ := auctionOutputs_correct bids rbs hgood hm iw i2
    (by rw [hblen]; exact hiwlt) (by rw [hblen]; exact hi2lt) hi2ne hposmax hpossec
  rw [hbgetD i2 hi2lt, hi2getD, ← hsHB] at hout_w
  have hm3 : parties.length = 3 ∨ parties.length = 4 := by
    rw [hplen]
    exact hlen
  have hm4 : ¬ (parties.length < 4 - 1) := by rcases hm3 with h | h <;> omega
  have hrun : ∀ pid : Nat, auctionRun 4 1 pid activeSet bid rbs =
      if pid ∈ parties then
        Except.ok (some ((auctionOutputs bids rbs).getD
          (parties.findIdx (fun t => t = pid)) 0))
      else Except.ok none := by
    intro pid
    have hdef : auctionRun 4 1 pid activeSet bid rbs =
        if (activeSet.mergeSort (fun a b => a ≤ b)).length < 4 - 1 then
          Except.error "assert m >= n - f"
        else if (activeSet.mergeSort (fun a b => a ≤ b)).length = 3 ∨
            (activeSet.mergeSort (fun a b => a ≤ b)).length = 4 then
          if pid ∈ activeSet.mergeSort (fun a b => a ≤ b) then
            Except.ok (some ((auctionOutputs
              ((activeSet.mergeSort (fun a b => a ≤ b)).map bid) rbs).getD
              ((activeSet.mergeSort (fun a b => a ≤ b)).findIdx (fun t => t = pid)) 0))
          else Except.ok none
        else Except.error "Unsupported active set size" := rfl
    rw [hdef, ← hpar, ← hbids, if_neg hm4, if_pos hm3]
  refine ⟨?_, ?_, ?_⟩
  · rw [hrun w, if_pos hwmem, ← hiwd, hout_w]
  · intro p hpT hpw
    have hpP : p ∈ parties := (hpmem p).mpr hpT
    rw [hrun p, if_pos hpP]
    have hplt := findIdx_self_lt parties p hpP
    have hpget := findIdx_self_getD parties p hpP
    have hpne : parties.findIdx (fun x => x = p) ≠ iw := by
      intro he
      apply hpw
      rw [← hpget, he, hiwgetD]
    rw [hout_o _ (by rw [hblen]; exact hplt) hpne]
  · intro p hpT
    rw [hrun p, if_neg (fun hc => hpT ((hpmem p).mp hc))]

/-- Witness for auction_correct at the seed scenario: active set 1..4,
bids 5, 20, 13, 7, all-false random-bit pools; the winner is party 2,
parties 1, 3, 4 receive 0, and party 5 (outside the set) receives
nothing. -/
theorem auction_correct_witness :
    auctionRun 4 1 2 [1, 2, 3, 4] demoBid demoRbs =
      Except.ok (some ((secondHighestBid [1, 2, 3, 4] demoBid 2 : Nat) : Fp)) ∧
    auctionRun 4 1 3 [1, 2, 3, 4] demoBid demoRbs = Except.ok (some 0) ∧
    auctionRun 4 1 5 [1, 2, 3, 4] demoBid demoRbs = Except.ok none := by
  have h := auction_correct [1, 2, 3, 4] demoBid demoRbs 2 (Or.inr rfl) (by decide)
    (by decide) (by decide) rfl (by decide) (by decide) (by decide)
  exact ⟨h.1, h.2.1 3 (by decide) (by decide), h.2.2 5 (by decide)⟩

end Reliability
